import Mathlib

/-!
# HAMi: namespace quota ledger and device registry

A shallow embedding of `pkg/scheduler/quota.go` and of the `DeviceMap.insert`
operation exercised by `pkg/device-plugin/nvidiadevice/nvinternal/rm/device_map_test.go`.

Conventions of the embedding.

* Go strings are byte sequences.  A Go string is represented by a `String`
  holding one character per byte, so that `String.length` is Go's `len`
  and dropping `n` characters is the slice expression `s[n:]`.
* `int64` values are integers; every `+` and `-` of the source is followed by
  `wrap64`, the reduction to the two's-complement range.
* A Go map with pointer values (`map[string]*Quota`, `map[string]*DeviceQuota`)
  is a partial function: a key is either absent (the lookup yields `nil`) or
  bound to a record.  No operation of the source ever stores a `nil`.
* A Go map that the source iterates over (`quota.Spec.Hard`, `util.PodDevices`,
  the result of `countPodDevices`) is a list of key/value pairs; the order of
  the list is the order in which `range` visits the entries.  For the two
  input maps the theorems hold for every list, hence for every visiting
  order; for the map built by `countPodDevices` the visiting order is shown
  to be irrelevant (`foldl_addUsageEntry_perm`, `rangeM_rmUsageEntry_perm`).
* A run-time panic (nil dereference, slice bound out of range) is the
  result `none`.
-/

namespace Scheduler

/-! ## Machine integers and strings -/

/-- Reduction of an integer to the range of `int64` (two's complement). -/
def wrap64 (x : Int) : Int := (x + 2 ^ 63) % 2 ^ 64 - 2 ^ 63

/-- The integer is a value of type `int64`. -/
def isInt64 (x : Int) : Prop := -(2 : Int) ^ 63 ≤ x ∧ x < 2 ^ 63

/-- Substring test `strings.Contains` on character lists. -/
def containsList : List Char → List Char → Bool
  | [], sub => sub.isPrefixOf []
  | c :: s, sub => sub.isPrefixOf (c :: s) || containsList s sub

/-- Go `strings.Contains(s, substr)`. -/
def stringsContains (s substr : String) : Bool := containsList s.data substr.data

/-- Go slice expression `s[n:]`; it panics when `n > len(s)`. -/
def sliceFrom (s : String) (n : Nat) : Option String :=
  if n ≤ s.length then some ⟨s.data.drop n⟩ else none

/-! ## Data model (quota.go, lines 29-43) -/

/-- Go `type Quota struct { Used int64; Limit int64 }`. -/
structure Quota where
  Used : Int
  Limit : Int
deriving DecidableEq, Repr

/-- Go `type DeviceQuota map[string]*Quota`. -/
abbrev DeviceQuota := String → Option Quota

/-- The field `Quotas map[string]*DeviceQuota` of `quotaManager`. -/
abbrev Ledger := String → Option DeviceQuota

/-- The package-level names `nvidia.ResourceMem` and `nvidia.ResourceCores`
(declared in package `nvidia`, outside the embedded files). -/
structure Nvidia where
  ResourceMem : String
  ResourceCores : String

/-- The ledger after `quotaManager.init`: no namespace has an entry. -/
def init : Ledger := fun _ => none

/-- The empty map literal `&DeviceQuota{}`. -/
def emptyDeviceQuota : DeviceQuota := fun _ => none

/-- Map store `(*dp)[idx] = &Quota{...}`. -/
def setDim (dp : DeviceQuota) (idx : String) (v : Quota) : DeviceQuota :=
  fun d => if d = idx then some v else dp d

/-- Map store `q.Quotas[ns] = ...`. -/
def setNs (q : Ledger) (ns : String) (dq : DeviceQuota) : Ledger :=
  fun n => if n = ns then some dq else q n

/-- Lines 83-86 and 130-133: `dp := q.Quotas[ns]` after the namespace's entry
has been created empty when it was `nil`. -/
def entryOf (q : Ledger) (ns : String) : DeviceQuota :=
  match q ns with
  | none => emptyDeviceQuota
  | some dq => dq

/-- The record stored for a (namespace, dimension) pair, if any. -/
def lookupQ (q : Ledger) (ns d : String) : Option Quota :=
  match q ns with
  | none => none
  | some dq => dq d

/-- `Used` of a (namespace, dimension) pair; an absent pair counts as 0. -/
def usedOf (q : Ledger) (ns d : String) : Int :=
  match lookupQ q ns d with
  | none => 0
  | some v => v.Used

/-- `Limit` of a (namespace, dimension) pair; an absent pair counts as 0. -/
def limitOf (q : Ledger) (ns d : String) : Int :=
  match lookupQ q ns d with
  | none => 0
  | some v => v.Limit

/-- `Used` of a dimension within one namespace entry; absent counts as 0. -/
def usedIn (dp : DeviceQuota) (d : String) : Int :=
  match dp d with
  | none => 0
  | some v => v.Used

/-- `Limit` of a dimension within one namespace entry; absent counts as 0. -/
def limitIn (dp : DeviceQuota) (d : String) : Int :=
  match dp d with
  | none => 0
  | some v => v.Limit

/-- Every stored counter is a value of type `int64`. -/
def WellTyped (q : Ledger) : Prop :=
  ∀ ns d v, lookupQ q ns d = some v → isInt64 v.Used ∧ isInt64 v.Limit

/-! ## FitQuota (quota.go, lines 45-60) -/

/-- The condition of lines 51 and 55:
`x.Limit != 0 && x.Used+req > x.Limit`, the sum taken in `int64`. -/
def overLimit (x : Quota) (req : Int) : Bool :=
  x.Limit != 0 && decide (wrap64 (x.Used + req) > x.Limit)

/-- Go `quotaManager.FitQuota`.  The log call of line 50 already reads
`(*dq)[nvidia.ResourceMem].Limit`, so a missing memory dimension panics
before any comparison; the cores dimension is read only when the memory
check did not return. -/
def FitQuota (nvidia : Nvidia) (q : Ledger) (ns : String) (memreq coresreq : Int) : Option Bool :=
  match q ns with
  | none => some true
  | some dq =>
    match dq nvidia.ResourceMem with
    | none => none
    | some m =>
      if overLimit m memreq then some false
      else
        match dq nvidia.ResourceCores with
        | none => none
        | some c =>
          if overLimit c coresreq then some false
          else some true

/-! ## Usage accounting (quota.go, lines 62-118) -/

/-- One per-device usage record of `util.ContainerDevices`; only the two
fields read by `countPodDevices` are kept.  The source converts them with
`int64(...)`. -/
structure ContainerDevice where
  Usedmem : Int
  Usedcores : Int
deriving DecidableEq, Repr

/-- The devices allocated to one container. -/
abbrev ContainerDevices := List ContainerDevice

/-- The per-container device lists of one resource name. -/
abbrev PodSingleDevice := List ContainerDevices

/-- Go `util.PodDevices`: resource name to per-container device lists. -/
abbrev PodDevices := List (String × PodSingleDevice)

/-- The part of `corev1.Pod` that the ledger reads. -/
structure Pod where
  Namespace : String
deriving DecidableEq, Repr

/-- The statement `res[k] += v` on a `map[string]int64`: a missing key reads
as zero and is created. -/
def addAt (res : List (String × Int)) (k : String) (v : Int) : List (String × Int) :=
  match res with
  | [] => [(k, wrap64 (0 + v))]
  | (k', x) :: t => if k' = k then (k', wrap64 (x + v)) :: t else (k', x) :: addAt t k v

/-- The body of the innermost loop of `countPodDevices` (lines 70-71). -/
def countDevice (nvidia : Nvidia) (res : List (String × Int)) (ctrdevice : ContainerDevice) :
    List (String × Int) :=
  addAt (addAt res nvidia.ResourceMem (wrap64 ctrdevice.Usedmem))
    nvidia.ResourceCores (wrap64 ctrdevice.Usedcores)

/-- Go `countPodDevices`. -/
def countPodDevices (nvidia : Nvidia) (podDev : PodDevices) : List (String × Int) :=
  podDev.foldl
    (fun res entry =>
      if !stringsContains entry.1 "NVIDIA" then res
      else entry.2.foldl (fun res ctrdevices => ctrdevices.foldl (countDevice nvidia) res) res)
    []

/-- The body of the loop of `addUsage` (lines 88-95). -/
def addUsageEntry (dp : DeviceQuota) (e : String × Int) : DeviceQuota :=
  let cur : Quota := match dp e.1 with
    | none => { Used := 0, Limit := 0 }
    | some x => x
  setDim dp e.1 { cur with Used := wrap64 (cur.Used + e.2) }

/-- Go `quotaManager.addUsage`. -/
def addUsage (nvidia : Nvidia) (q : Ledger) (pod : Pod) (podDev : PodDevices) : Ledger :=
  let usage := countPodDevices nvidia podDev
  if usage.length = 0 then q
  else
    let dp := entryOf q pod.Namespace
    setNs q pod.Namespace (usage.foldl addUsageEntry dp)

/-- A loop whose body may panic: the first panic ends the run. -/
def rangeM {σ α : Type} (f : σ → α → Option σ) : σ → List α → Option σ
  | s, [] => some s
  | s, a :: l =>
    match f s a with
    | none => none
    | some s' => rangeM f s' l

/-- The body of the loop of `rmUsage` (line 111): `(*dp)[idx].Used -= val`
dereferences the stored pointer without a presence check. -/
def rmUsageEntry (dp : DeviceQuota) (e : String × Int) : Option DeviceQuota :=
  match dp e.1 with
  | none => none
  | some x => some (setDim dp e.1 { x with Used := wrap64 (x.Used - e.2) })

/-- Go `quotaManager.rmUsage`. -/
def rmUsage (nvidia : Nvidia) (q : Ledger) (pod : Pod) (podDev : PodDevices) : Option Ledger :=
  let usage := countPodDevices nvidia podDev
  if usage.length = 0 then some q
  else
    match q pod.Namespace with
    | none => none
    | some dp =>
      match rangeM rmUsageEntry dp usage with
      | none => none
      | some dp' => some (setNs q pod.Namespace dp')

/-! ## Limits (quota.go, lines 120-172) -/

/-- A `resource.Quantity`, seen through `AsInt64`: `some v` when the quantity
converts to the `int64` value `v`, `none` when the conversion reports failure. -/
structure Quantity where
  AsInt64 : Option Int
deriving DecidableEq, Repr

/-- The part of `corev1.ResourceQuota` that the ledger reads:
`quota.Namespace` and `quota.Spec.Hard`. -/
structure ResourceQuota where
  Namespace : String
  Hard : List (String × Quantity)

/-- The expression `idx.String()[len("requests."):]` of lines 126 and 158. -/
def dimensionName (idx : String) : Option String := sliceFrom idx "requests.".length

/-- The body of the loop of `addQuota` (lines 124-143). -/
def addQuotaEntry (nvidia : Nvidia) (ns : String) (q : Ledger) (e : String × Quantity) :
    Option Ledger :=
  match e.2.AsInt64 with
  | none => some q
  | some value =>
    match dimensionName e.1 with
    | none => none
    | some dn =>
      if !stringsContains dn nvidia.ResourceMem && !stringsContains dn nvidia.ResourceCores then
        some q
      else
        let dp := entryOf q ns
        let cur : Quota := match dp dn with
          | none => { Used := 0, Limit := value }
          | some x => x
        some (setNs q ns (setDim dp dn { cur with Limit := value }))

/-- Go `quotaManager.addQuota`. -/
def addQuota (nvidia : Nvidia) (q : Ledger) (quota : ResourceQuota) : Option Ledger :=
  rangeM (addQuotaEntry nvidia quota.Namespace) q quota.Hard

/-- The body of the loop of `delQuota` (lines 156-164): line 163 dereferences
`q.Quotas[quota.Namespace]` and the stored `*Quota` without a presence check. -/
def delQuotaEntry (nvidia : Nvidia) (ns : String) (q : Ledger) (e : String × Quantity) :
    Option Ledger :=
  match e.2.AsInt64 with
  | none => some q
  | some _ =>
    match dimensionName e.1 with
    | none => none
    | some dn =>
      if !stringsContains dn nvidia.ResourceMem && !stringsContains dn nvidia.ResourceCores then
        some q
      else
        match q ns with
        | none => none
        | some dq =>
          match dq dn with
          | none => none
          | some x => some (setNs q ns (setDim dq dn { x with Limit := 0 }))

/-- Go `quotaManager.delQuota`. -/
def delQuota (nvidia : Nvidia) (q : Ledger) (quota : ResourceQuota) : Option Ledger :=
  rangeM (delQuotaEntry nvidia quota.Namespace) q quota.Hard

/-- The ledger states that completed calls of the four mutating operations
produce from the initial ledger. -/
inductive Reachable (nvidia : Nvidia) : Ledger → Prop
  | start : Reachable nvidia init
  | afterAddQuota {q q' : Ledger} (quota : ResourceQuota) :
      Reachable nvidia q → addQuota nvidia q quota = some q' → Reachable nvidia q'
  | afterDelQuota {q q' : Ledger} (quota : ResourceQuota) :
      Reachable nvidia q → delQuota nvidia q quota = some q' → Reachable nvidia q'
  | afterAddUsage {q : Ledger} (pod : Pod) (podDev : PodDevices) :
      Reachable nvidia q → Reachable nvidia (addUsage nvidia q pod podDev)
  | afterRmUsage {q q' : Ledger} (pod : Pod) (podDev : PodDevices) :
      Reachable nvidia q → rmUsage nvidia q pod podDev = some q' → Reachable nvidia q'

/-! ## Words of the specification, for comparison with the code -/

/-- The devices listed under a resource name containing "NVIDIA", over all
containers. -/
def relevantDevices (podDev : PodDevices) : List ContainerDevice :=
  (podDev.filter (fun entry => stringsContains entry.1 "NVIDIA")).flatMap
    (fun entry => entry.2.flatten)

/-- The sum of `Usedmem` over the relevant devices. -/
def sumMem (podDev : PodDevices) : Int := ((relevantDevices podDev).map (·.Usedmem)).sum

/-- The sum of `Usedcores` over the relevant devices. -/
def sumCores (podDev : PodDevices) : Int := ((relevantDevices podDev).map (·.Usedcores)).sum

/-- The total that a usage map holds for dimension `d` (0 when `d` is not a
key of it). -/
def usageFor : List (String × Int) → String → Int
  | [], _ => 0
  | e :: t, d => (if e.1 = d then e.2 else 0) + usageFor t d

/-- The hard-limit key has the form "requests.<d>". -/
def hasRequestsPrefix (idx : String) : Prop := "requests.".data <+: idx.data

instance (idx : String) : Decidable (hasRequestsPrefix idx) := by
  unfold hasRequestsPrefix
  infer_instance

/-- The dimension name contains the memory marker or the cores marker. -/
def recognized (nvidia : Nvidia) (dn : String) : Bool :=
  stringsContains dn nvidia.ResourceMem || stringsContains dn nvidia.ResourceCores

/-- The hard-limit entry is one that the loops of `addQuota` and `delQuota`
act on for dimension `d`: its value converts and its dimension name is `d`
and matches the memory or the cores marker. -/
def names (nvidia : Nvidia) (e : String × Quantity) (d : String) : Prop :=
  e.2.AsInt64 ≠ none ∧ dimensionName e.1 = some d ∧ recognized nvidia d = true

/-- The value of the last entry of the hard-limit list, in visiting order,
that names dimension `d`. -/
def lastLimit (nvidia : Nvidia) : List (String × Quantity) → String → Option Int
  | [], _ => none
  | e :: t, d =>
    match lastLimit nvidia t d with
    | some v => some v
    | none =>
      match e.2.AsInt64 with
      | none => none
      | some v => if dimensionName e.1 = some d ∧ recognized nvidia d = true then some v else none

/-- The dimension that the loops of `addQuota` and `delQuota` act on for a
hard-limit entry, if any: the value converts, the key has at least 9 bytes,
and what follows the first 9 bytes matches the memory or the cores marker. -/
def actsOn (nvidia : Nvidia) (e : String × Quantity) : Option String :=
  match e.2.AsInt64 with
  | none => none
  | some _ =>
    match dimensionName e.1 with
    | none => none
    | some d => if recognized nvidia d = true then some d else none

/-- No namespace and no dimension present in `q` is missing from `q'`. -/
def keepsEntries (q q' : Ledger) : Prop :=
  (∀ ns, q ns ≠ none → q' ns ≠ none) ∧ ∀ ns d, lookupQ q ns d ≠ none → lookupQ q' ns d ≠ none

/-- Every pair present in `q` is present in `q'` with the same `Limit`. -/
def keepsLimits (q q' : Ledger) : Prop :=
  ∀ ns d v, lookupQ q ns d = some v → ∃ v', lookupQ q' ns d = some v' ∧ v'.Limit = v.Limit

/-- Every pair present in `q` is present in `q'` with the same `Used`. -/
def keepsUsed (q q' : Ledger) : Prop :=
  ∀ ns d v, lookupQ q ns d = some v → ∃ v', lookupQ q' ns d = some v' ∧ v'.Used = v.Used

/-! ## Sample values -/

/-- The default resource names of the NVIDIA device package. -/
def sampleNvidia : Nvidia :=
  { ResourceMem := "nvidia.com/gpumem", ResourceCores := "nvidia.com/gpucores" }

/-- A namespace entry holding both dimensions. -/
def sampleDeviceQuota : DeviceQuota :=
  setDim (setDim emptyDeviceQuota "nvidia.com/gpumem" { Used := 5, Limit := 10 })
    "nvidia.com/gpucores" { Used := 20, Limit := 100 }

/-- A ledger with one namespace, "team-a". -/
def sampleLedger : Ledger := setNs init "team-a" sampleDeviceQuota

/-- A namespace entry whose limits are both 0. -/
def unboundedDeviceQuota : DeviceQuota :=
  setDim (setDim emptyDeviceQuota "nvidia.com/gpumem" { Used := 5, Limit := 0 })
    "nvidia.com/gpucores" { Used := 20, Limit := 0 }

/-- A ledger in which "team-a" has no limit on either dimension. -/
def unboundedLedger : Ledger := setNs init "team-a" unboundedDeviceQuota

/-- A quota object for "team-a": a memory limit, an entry for a dimension
that is not a device dimension, and a cores entry whose value does not
convert. -/
def sampleQuota : ResourceQuota :=
  { Namespace := "team-a",
    Hard := [("requests.nvidia.com/gpumem", { AsInt64 := some 64 }),
             ("requests.cpu", { AsInt64 := some 4 }),
             ("requests.nvidia.com/gpucores", { AsInt64 := none })] }

/-- A quota object for "team-a" that names the memory dimension only. -/
def memOnlyQuota : ResourceQuota :=
  { Namespace := "team-a",
    Hard := [("requests.nvidia.com/gpumem", { AsInt64 := some 10 })] }

/-- The ledger that `addQuota` with `memOnlyQuota` produces from the initial
ledger: "team-a" holds the memory dimension only. -/
def memOnlyLedger : Ledger :=
  setNs init "team-a" (setDim emptyDeviceQuota "nvidia.com/gpumem" { Used := 0, Limit := 10 })

/-- A quota object for "team-a" that names the cores dimension only. -/
def coresOnlyQuota : ResourceQuota :=
  { Namespace := "team-a",
    Hard := [("requests.nvidia.com/gpucores", { AsInt64 := some 200 })] }

/-- A quota object for "team-a" with the object-count key "pods". -/
def podsQuota : ResourceQuota :=
  { Namespace := "team-a",
    Hard := [("pods", { AsInt64 := some 10 })] }

/-- Two distinct keys of 26 bytes that agree after their first 9 bytes. -/
def collidingHard : List (String × Quantity) :=
  [("requests.nvidia.com/gpumem", { AsInt64 := some 5 }),
   ("xequests.nvidia.com/gpumem", { AsInt64 := some 7 })]

/-- A pod of namespace "team-b". -/
def otherPod : Pod := { Namespace := "team-b" }

/-- A pod of namespace "team-a". -/
def samplePod : Pod := { Namespace := "team-a" }

/-- Two NVIDIA devices in one container and one device of another vendor. -/
def samplePodDevices : PodDevices :=
  [("NVIDIA", [[{ Usedmem := 3, Usedcores := 30 }, { Usedmem := 4, Usedcores := 40 }]]),
   ("Ascend", [[{ Usedmem := 100, Usedcores := 100 }]])]

end Scheduler

namespace Rm

/-- A device of the registry: `ID`, `Index`, and the vendor fields, which the
registry passes through unchanged, as one value of type `V`. -/
structure Device (V : Type) where
  ID : String
  Index : String
  vendor : V
deriving DecidableEq

/-- Go `type Devices map[string]*Device`. -/
abbrev Devices (V : Type) := String → Option (Device V)

/-- Go `type DeviceMap map[spec.ResourceName]Devices`. -/
abbrev DeviceMap (V : Type) := String → Option (Devices V)

/-- The empty registry `make(DeviceMap)`. -/
def emptyMap (V : Type) : DeviceMap V := fun _ => none

/-- Modelled from the spec: `DeviceMap.insert`, whose body is not among the
embedded files (only its test is).  The spec: "unconditionally upserts
`device` into `DeviceMap[resourceName][device.ID]`.  Creates the `Devices`
collection and/or `DeviceMap` entry if absent", a device with the same ID
"is fully replaced by the new record". -/
def insert {V : Type} (d : DeviceMap V) (name : String) (dev : Device V) : DeviceMap V :=
  let ds : Devices V := match d name with
    | none => fun _ => none
    | some ds => ds
  fun r => if r = name then some (fun id => if id = dev.ID then some dev else ds id) else d r

/-- The device stored for a (resource name, device ID) pair, if any. -/
def lookupDev {V : Type} (d : DeviceMap V) (name id : String) : Option (Device V) :=
  match d name with
  | none => none
  | some ds => ds id

/-! ## The values of TestDeviceMapInsert (device_map_test.go, lines 44-115) -/

/-- Line 44: `device0`. -/
def device0 : Device Unit := { ID := "0", Index := "", vendor := () }

/-- Line 45: `device0withIndex`. -/
def device0withIndex : Device Unit := { ID := "0", Index := "index", vendor := () }

/-- Line 46: `device1`. -/
def device1 : Device Unit := { ID := "1", Index := "", vendor := () }

/-- The map literal `DeviceMap{"resource": Devices{"0": &device0}}`. -/
def resourceWithDevice0 : DeviceMap Unit :=
  fun r => if r = "resource" then some (fun id => if id = "0" then some device0 else none)
    else none

/-- The expected map of the case "add to existing resource". -/
def expectedAddToExisting : DeviceMap Unit :=
  fun r =>
    if r = "resource" then
      some (fun id => if id = "0" then some device0 else if id = "1" then some device1 else none)
    else none

/-- The expected map of the case "add new resource". -/
def expectedAddNewResource : DeviceMap Unit :=
  fun r =>
    if r = "resource" then some (fun id => if id = "0" then some device0 else none)
    else if r = "resource1" then some (fun id => if id = "0" then some device0 else none)
    else none

/-- The expected map of the case "overwrite existing device". -/
def expectedOverwrite : DeviceMap Unit :=
  fun r =>
    if r = "resource" then some (fun id => if id = "0" then some device0withIndex else none)
    else none

end Rm

/-! # Theorems -/

namespace Scheduler

/-! ## Arithmetic of `int64` -/

theorem wrap64_of_isInt64 {x : Int} (h : isInt64 x) : wrap64 x = x := by
  unfold isInt64 at h
  unfold wrap64
  norm_num at h ⊢
  omega

theorem isInt64_wrap64 (x : Int) : isInt64 (wrap64 x) := by
  unfold isInt64 wrap64
  norm_num
  omega

theorem wrap64_add_wrap64 (x y : Int) : wrap64 (wrap64 x + wrap64 y) = wrap64 (x + y) := by
  unfold wrap64
  norm_num
  omega

theorem wrap64_wrap64 (x : Int) : wrap64 (wrap64 x) = wrap64 x := by
  unfold wrap64
  norm_num

theorem wrap64_add_left (x y : Int) : wrap64 (wrap64 x + y) = wrap64 (x + y) := by
  unfold wrap64
  norm_num
  omega

theorem wrap64_add_right (x y : Int) : wrap64 (x + wrap64 y) = wrap64 (x + y) := by
  unfold wrap64
  norm_num
  omega

theorem wrap64_sub_right (x y : Int) : wrap64 (x - wrap64 y) = wrap64 (x - y) := by
  unfold wrap64
  norm_num
  omega

/-! ## FitQuota -/

theorem overLimit_of_limit_zero (x : Quota) (req : Int) (h : x.Limit = 0) :
    overLimit x req = false := by
  simp [overLimit, h]

theorem overLimit_exact (x : Quota) (req : Int) (hL : x.Limit ≠ 0)
    (h : isInt64 (x.Used + req)) : overLimit x req = decide (x.Limit < x.Used + req) := by
  simp [overLimit, hL, wrap64_of_isInt64 h]

/-- C1: when the namespace holds both dimensions with non-zero limits and
neither sum leaves the `int64` range, `FitQuota` returns true exactly when
both `Um + memreq ≤ Lm` and `Uc + coresreq ≤ Lc`; exceeding either dimension
alone gives false. -/
theorem FitQuota_iff_within_both_limits (nvidia : Nvidia) (q : Ledger) (ns : String)
    (dq : DeviceQuota) (Um Lm Uc Lc memreq coresreq : Int)
    (hns : q ns = some dq)
    (hm : dq nvidia.ResourceMem = some { Used := Um, Limit := Lm })
    (hc : dq nvidia.ResourceCores = some { Used := Uc, Limit := Lc })
    (hLm : Lm ≠ 0) (hLc : Lc ≠ 0)
    (hom : isInt64 (Um + memreq)) (hoc : isInt64 (Uc + coresreq)) :
    (FitQuota nvidia q ns memreq coresreq = some true ↔
      (Um + memreq ≤ Lm ∧ Uc + coresreq ≤ Lc)) ∧
    (FitQuota nvidia q ns memreq coresreq = some false ↔
      (Lm < Um + memreq ∨ Lc < Uc + coresreq)) := by
  have em := overLimit_exact { Used := Um, Limit := Lm } memreq hLm hom
  have ec := overLimit_exact { Used := Uc, Limit := Lc } coresreq hLc hoc
  simp only [FitQuota, hns, hm, hc, em, ec]
  by_cases h1 : Lm < Um + memreq
  · simp [h1]
  · by_cases h2 : Lc < Uc + coresreq
    · simp [h1, h2]
    · simp [h1, h2]
      omega

/-- C2: a namespace without a ledger entry is admitted, whatever the
requests. -/
theorem FitQuota_no_entry (nvidia : Nvidia) (q : Ledger) (ns : String) (memreq coresreq : Int)
    (hns : q ns = none) : FitQuota nvidia q ns memreq coresreq = some true := by
  simp [FitQuota, hns]

/-- C3: with both dimensions present, a dimension whose `Limit` is 0 never
denies: if the memory limit is 0 the result is the cores check alone, if the
cores limit is 0 the result is the memory check alone, and if both are 0 the
result is true for all requests. -/
theorem FitQuota_limit_zero_unbounded (nvidia : Nvidia) (q : Ledger) (ns : String)
    (dq : DeviceQuota) (m c : Quota) (memreq coresreq : Int)
    (hns : q ns = some dq)
    (hm : dq nvidia.ResourceMem = some m) (hc : dq nvidia.ResourceCores = some c) :
    (m.Limit = 0 → FitQuota nvidia q ns memreq coresreq = some (!overLimit c coresreq)) ∧
    (c.Limit = 0 → FitQuota nvidia q ns memreq coresreq = some (!overLimit m memreq)) ∧
    (m.Limit = 0 → c.Limit = 0 → FitQuota nvidia q ns memreq coresreq = some true) := by
  refine ⟨?_, ?_, ?_⟩
  · intro h0
    simp only [FitQuota, hns, hm, hc, overLimit_of_limit_zero m memreq h0]
    cases overLimit c coresreq <;> simp
  · intro h0
    simp only [FitQuota, hns, hm, hc, overLimit_of_limit_zero c coresreq h0]
    cases overLimit m memreq <;> simp
  · intro h0 h1
    simp [FitQuota, hns, hm, hc, overLimit_of_limit_zero m memreq h0,
      overLimit_of_limit_zero c coresreq h1]

end Scheduler

namespace Scheduler

theorem FitQuota_iff_within_both_limits_witness :
    (FitQuota sampleNvidia sampleLedger "team-a" 3 10 = some true ↔
      ((5 : Int) + 3 ≤ 10 ∧ (20 : Int) + 10 ≤ 100)) ∧
    (FitQuota sampleNvidia sampleLedger "team-a" 3 10 = some false ↔
      ((10 : Int) < 5 + 3 ∨ (100 : Int) < 20 + 10)) :=
  FitQuota_iff_within_both_limits sampleNvidia sampleLedger "team-a" sampleDeviceQuota
    5 10 20 100 3 10 rfl (by decide) (by decide) (by decide) (by decide)
    (by unfold isInt64; norm_num) (by unfold isInt64; norm_num)

theorem FitQuota_no_entry_witness :
    sampleLedger "team-b" = none ∧
      FitQuota sampleNvidia sampleLedger "team-b" (2 ^ 63 - 1) (-5) = some true :=
  ⟨rfl, FitQuota_no_entry sampleNvidia sampleLedger "team-b" (2 ^ 63 - 1) (-5) rfl⟩

theorem FitQuota_limit_zero_unbounded_witness :
    FitQuota sampleNvidia unboundedLedger "team-a" 1000 1000 = some true :=
  (FitQuota_limit_zero_unbounded sampleNvidia unboundedLedger "team-a" unboundedDeviceQuota
    { Used := 5, Limit := 0 } { Used := 20, Limit := 0 } 1000 1000
    rfl (by decide) (by decide)).2.2 rfl rfl

end Scheduler

namespace Scheduler

/-! ## countPodDevices -/

theorem foldl_foldl_flatten {σ α : Type} (g : σ → α → σ) (l : List (List α)) (res : σ) :
    l.foldl (fun res xs => xs.foldl g res) res = l.flatten.foldl g res := by
  induction l generalizing res with
  | nil => rfl
  | cons xs t ih => simp [List.foldl_append, ih]

theorem relevantDevices_cons (entry : String × PodSingleDevice) (t : PodDevices) :
    relevantDevices (entry :: t) =
      if stringsContains entry.1 "NVIDIA" then entry.2.flatten ++ relevantDevices t
      else relevantDevices t := by
  unfold relevantDevices
  by_cases h : stringsContains entry.1 "NVIDIA" = true
  · simp [List.filter_cons, h]
  · simp [List.filter_cons, h]

theorem countPodDevices_loop (nvidia : Nvidia) (podDev : PodDevices) (res : List (String × Int)) :
    podDev.foldl
      (fun res entry =>
        if !stringsContains entry.1 "NVIDIA" then res
        else entry.2.foldl (fun res ctrdevices => ctrdevices.foldl (countDevice nvidia) res) res)
      res = (relevantDevices podDev).foldl (countDevice nvidia) res := by
  induction podDev generalizing res with
  | nil => rfl
  | cons entry t ih =>
    rw [List.foldl_cons, ih, relevantDevices_cons]
    by_cases h : stringsContains entry.1 "NVIDIA" = true
    · simp [h, List.foldl_append, foldl_foldl_flatten]
    · simp [h]

theorem countPodDevices_eq (nvidia : Nvidia) (podDev : PodDevices) :
    countPodDevices nvidia podDev = (relevantDevices podDev).foldl (countDevice nvidia) [] :=
  countPodDevices_loop nvidia podDev []

theorem countDevice_pair (nvidia : Nvidia) (hne : nvidia.ResourceMem ≠ nvidia.ResourceCores)
    (A B : Int) (dev : ContainerDevice) :
    countDevice nvidia [(nvidia.ResourceMem, wrap64 A), (nvidia.ResourceCores, wrap64 B)] dev =
      [(nvidia.ResourceMem, wrap64 (A + dev.Usedmem)),
       (nvidia.ResourceCores, wrap64 (B + dev.Usedcores))] := by
  simp [countDevice, addAt, hne, wrap64_add_wrap64]

theorem countDevice_nil (nvidia : Nvidia) (hne : nvidia.ResourceMem ≠ nvidia.ResourceCores)
    (dev : ContainerDevice) :
    countDevice nvidia [] dev =
      [(nvidia.ResourceMem, wrap64 dev.Usedmem), (nvidia.ResourceCores, wrap64 dev.Usedcores)] := by
  simp [countDevice, addAt, hne, wrap64_wrap64]

theorem foldl_countDevice_pair (nvidia : Nvidia)
    (hne : nvidia.ResourceMem ≠ nvidia.ResourceCores) (l : List ContainerDevice) (A B : Int) :
    l.foldl (countDevice nvidia)
        [(nvidia.ResourceMem, wrap64 A), (nvidia.ResourceCores, wrap64 B)] =
      [(nvidia.ResourceMem, wrap64 (A + (l.map (·.Usedmem)).sum)),
       (nvidia.ResourceCores, wrap64 (B + (l.map (·.Usedcores)).sum))] := by
  induction l generalizing A B with
  | nil => simp
  | cons dev t ih =>
    rw [List.foldl_cons, countDevice_pair nvidia hne, ih]
    simp [add_assoc]

/-- With two distinct dimension names, the usage map is empty when the pod
has no relevant device and otherwise holds the two wrapped totals. -/
theorem countPodDevices_of_ne (nvidia : Nvidia)
    (hne : nvidia.ResourceMem ≠ nvidia.ResourceCores) (podDev : PodDevices) :
    countPodDevices nvidia podDev =
      if relevantDevices podDev = [] then []
      else [(nvidia.ResourceMem, wrap64 (sumMem podDev)),
            (nvidia.ResourceCores, wrap64 (sumCores podDev))] := by
  rw [countPodDevices_eq]
  unfold sumMem sumCores
  cases h : relevantDevices podDev with
  | nil => simp
  | cons dev t =>
    rw [List.foldl_cons, countDevice_nil nvidia hne, foldl_countDevice_pair nvidia hne]
    simp

theorem addAt_ne_nil (res : List (String × Int)) (k : String) (v : Int) : addAt res k v ≠ [] := by
  cases res with
  | nil => simp [addAt]
  | cons e t =>
    obtain ⟨k', x⟩ := e
    unfold addAt
    split <;> simp

theorem foldl_countDevice_ne_nil (nvidia : Nvidia) (l : List ContainerDevice)
    (res : List (String × Int)) (h : res ≠ []) : l.foldl (countDevice nvidia) res ≠ [] := by
  induction l generalizing res with
  | nil => simpa using h
  | cons dev t ih =>
    rw [List.foldl_cons]
    exact ih _ (addAt_ne_nil _ _ _)

/-- The usage map is empty exactly when the pod has no relevant device. -/
theorem countPodDevices_eq_nil_iff (nvidia : Nvidia) (podDev : PodDevices) :
    countPodDevices nvidia podDev = [] ↔ relevantDevices podDev = [] := by
  rw [countPodDevices_eq]
  cases h : relevantDevices podDev with
  | nil => simp
  | cons dev t =>
    simp only [List.foldl_cons, reduceCtorEq, iff_false]
    exact foldl_countDevice_ne_nil nvidia t _ (addAt_ne_nil _ _ _)

end Scheduler

namespace Scheduler

/-! ## The loops of addUsage and rmUsage -/

theorem wrap64_sub_left (x y : Int) : wrap64 (wrap64 x - y) = wrap64 (x - y) := by
  unfold wrap64
  norm_num
  omega

theorem mem_keys_cons {β : Type} (d : String) (e : String × β) (t : List (String × β)) :
    d ∈ (e :: t).map Prod.fst ↔ d = e.1 ∨ d ∈ t.map Prod.fst := by
  simp only [List.map_cons, List.mem_cons]

theorem addUsageEntry_apply (dp : DeviceQuota) (e : String × Int) (d : String) :
    addUsageEntry dp e d =
      if d = e.1 then some { Used := wrap64 (usedIn dp d + e.2), Limit := limitIn dp d }
      else dp d := by
  unfold addUsageEntry setDim usedIn limitIn
  by_cases h : d = e.1
  · subst h
    cases hd : dp e.1 <;> simp
  · simp [h]

theorem usedIn_addUsageEntry (dp : DeviceQuota) (e : String × Int) (d : String) :
    usedIn (addUsageEntry dp e) d =
      if d = e.1 then wrap64 (usedIn dp d + e.2) else usedIn dp d := by
  by_cases h : d = e.1
  · simp [usedIn, addUsageEntry_apply, h]
  · simp [usedIn, addUsageEntry_apply, h]

theorem limitIn_addUsageEntry (dp : DeviceQuota) (e : String × Int) (d : String) :
    limitIn (addUsageEntry dp e) d = limitIn dp d := by
  by_cases h : d = e.1
  · simp [limitIn, addUsageEntry_apply, h]
  · simp [limitIn, addUsageEntry_apply, h]

theorem usageFor_of_not_mem (u : List (String × Int)) (d : String)
    (h : d ∉ u.map Prod.fst) : usageFor u d = 0 := by
  induction u with
  | nil => rfl
  | cons e t ih =>
    rw [mem_keys_cons, not_or] at h
    have h1 : ¬ e.1 = d := fun h' => h.1 h'.symm
    simp [usageFor, h1, ih h.2]

/-- The effect of the loop of `addUsage` on one dimension. -/
theorem foldl_addUsageEntry_apply (u : List (String × Int)) (dp : DeviceQuota) (d : String) :
    u.foldl addUsageEntry dp d =
      if d ∈ u.map Prod.fst then
        some { Used := wrap64 (usedIn dp d + usageFor u d), Limit := limitIn dp d }
      else dp d := by
  induction u generalizing dp with
  | nil => simp
  | cons e t ih =>
    rw [List.foldl_cons, ih, usedIn_addUsageEntry, limitIn_addUsageEntry, addUsageEntry_apply]
    by_cases hd : d = e.1
    · have hd' : e.1 = d := hd.symm
      rw [if_pos ((mem_keys_cons d e t).mpr (Or.inl hd)), if_pos hd, if_pos hd]
      by_cases ht : d ∈ t.map Prod.fst
      · rw [if_pos ht]
        simp only [usageFor, if_pos hd', wrap64_add_left, add_assoc]
      · rw [if_neg ht, usageFor, if_pos hd', usageFor_of_not_mem t d ht, add_zero]
    · have hd' : ¬ e.1 = d := fun h => hd h.symm
      rw [if_neg hd, if_neg hd]
      by_cases ht : d ∈ t.map Prod.fst
      · rw [if_pos ht, if_pos ((mem_keys_cons d e t).mpr (Or.inr ht))]
        simp only [usageFor, if_neg hd', zero_add]
      · rw [if_neg ht, if_neg (fun h => ((mem_keys_cons d e t).mp h).elim hd ht)]

theorem rmUsageEntry_of_some (dp : DeviceQuota) (e : String × Int) (x : Quota)
    (h : dp e.1 = some x) :
    rmUsageEntry dp e = some (setDim dp e.1 { x with Used := wrap64 (x.Used - e.2) }) := by
  simp [rmUsageEntry, h]

/-- The loop of `rmUsage` completes when every dimension of the usage map is
present, and its effect on one dimension is the subtraction of the total. -/
theorem rangeM_rmUsageEntry (u : List (String × Int)) (dp : DeviceQuota)
    (hp : ∀ k ∈ u.map Prod.fst, dp k ≠ none) :
    ∃ dp', rangeM rmUsageEntry dp u = some dp' ∧
      ∀ d, dp' d =
        if d ∈ u.map Prod.fst then
          some { Used := wrap64 (usedIn dp d - usageFor u d), Limit := limitIn dp d }
        else dp d := by
  induction u generalizing dp with
  | nil => exact ⟨dp, rfl, fun d => by simp⟩
  | cons e t ih =>
    have he : dp e.1 ≠ none := hp e.1 ((mem_keys_cons e.1 e t).mpr (Or.inl rfl))
    obtain ⟨x, hx⟩ := Option.ne_none_iff_exists'.mp he
    have hstep := rmUsageEntry_of_some dp e x hx
    have hp' : ∀ k ∈ t.map Prod.fst,
        setDim dp e.1 { x with Used := wrap64 (x.Used - e.2) } k ≠ none := by
      intro k hk
      unfold setDim
      by_cases hke : k = e.1
      · simp [hke]
      · simpa [hke] using hp k ((mem_keys_cons k e t).mpr (Or.inr hk))
    obtain ⟨dp', hrun, hval⟩ := ih _ hp'
    refine ⟨dp', by simp [rangeM, hstep, hrun], ?_⟩
    intro d
    rw [hval d]
    by_cases hd : d = e.1
    · have hd' : e.1 = d := hd.symm
      have hu : usedIn (setDim dp e.1 { x with Used := wrap64 (x.Used - e.2) }) d =
          wrap64 (usedIn dp d - e.2) := by
        simp [usedIn, setDim, hd, hx]
      have hl : limitIn (setDim dp e.1 { x with Used := wrap64 (x.Used - e.2) }) d =
          limitIn dp d := by
        simp [limitIn, setDim, hd, hx]
      have hs : setDim dp e.1 { x with Used := wrap64 (x.Used - e.2) } d =
          some { Used := wrap64 (usedIn dp d - e.2), Limit := limitIn dp d } := by
        simp [usedIn, limitIn, setDim, hd, hx]
      rw [hu, hl, hs, if_pos ((mem_keys_cons d e t).mpr (Or.inl hd))]
      by_cases ht : d ∈ t.map Prod.fst
      · rw [if_pos ht]
        simp only [usageFor, if_pos hd', wrap64_sub_left, sub_sub]
      · rw [if_neg ht, usageFor, if_pos hd', usageFor_of_not_mem t d ht, add_zero]
    · have hd' : ¬ e.1 = d := fun h => hd h.symm
      have hu : usedIn (setDim dp e.1 { x with Used := wrap64 (x.Used - e.2) }) d =
          usedIn dp d := by
        simp [usedIn, setDim, hd]
      have hl : limitIn (setDim dp e.1 { x with Used := wrap64 (x.Used - e.2) }) d =
          limitIn dp d := by
        simp [limitIn, setDim, hd]
      have hs : setDim dp e.1 { x with Used := wrap64 (x.Used - e.2) } d = dp d := by
        simp [setDim, hd]
      rw [hu, hl, hs]
      by_cases ht : d ∈ t.map Prod.fst
      · rw [if_pos ht, if_pos ((mem_keys_cons d e t).mpr (Or.inr ht))]
        simp only [usageFor, if_neg hd', zero_add]
      · rw [if_neg ht, if_neg (fun h => ((mem_keys_cons d e t).mp h).elim hd ht)]

end Scheduler

namespace Scheduler

/-! ## The visiting order of the usage map is irrelevant

The loops of `addUsage` and `rmUsage` visit the map returned by
`countPodDevices` in an order that Go leaves open; the embedding fixes one.
The two lemmas below show that every other order gives the same result. -/

theorem usageFor_perm (u u' : List (String × Int)) (d : String) (h : u.Perm u') :
    usageFor u d = usageFor u' d := by
  induction h with
  | nil => rfl
  | cons e _ ih => simp [usageFor, ih]
  | swap e e' t => simp only [usageFor]; omega
  | trans _ _ ih1 ih2 => rw [ih1, ih2]

theorem foldl_addUsageEntry_perm (u u' : List (String × Int)) (dp : DeviceQuota)
    (h : u.Perm u') : u.foldl addUsageEntry dp = u'.foldl addUsageEntry dp := by
  funext d
  have hmem : d ∈ u.map Prod.fst ↔ d ∈ u'.map Prod.fst := (h.map Prod.fst).mem_iff
  rw [foldl_addUsageEntry_apply, foldl_addUsageEntry_apply, usageFor_perm u u' d h]
  by_cases hd : d ∈ u.map Prod.fst
  · rw [if_pos hd, if_pos (hmem.mp hd)]
  · rw [if_neg hd, if_neg (fun h' => hd (hmem.mpr h'))]

theorem rangeM_rmUsageEntry_missing (u : List (String × Int)) (dp : DeviceQuota)
    (h : ∃ k ∈ u.map Prod.fst, dp k = none) : rangeM rmUsageEntry dp u = none := by
  induction u generalizing dp with
  | nil => simp at h
  | cons e t ih =>
    cases he : dp e.1 with
    | none => simp [rangeM, rmUsageEntry, he]
    | some x =>
      obtain ⟨k, hk, hnone⟩ := h
      have hke : k ≠ e.1 := by
        intro hcon
        rw [hcon, he] at hnone
        cases hnone
      have hkt : k ∈ t.map Prod.fst := by
        rcases (mem_keys_cons k e t).mp hk with h1 | h1
        · exact absurd h1 hke
        · exact h1
      have := ih (setDim dp e.1 { x with Used := wrap64 (x.Used - e.2) })
        ⟨k, hkt, by simp [setDim, hke, hnone]⟩
      simp [rangeM, rmUsageEntry, he, this]

theorem rangeM_rmUsageEntry_perm (u u' : List (String × Int)) (dp : DeviceQuota)
    (h : u.Perm u') : rangeM rmUsageEntry dp u = rangeM rmUsageEntry dp u' := by
  have hmem : ∀ d, d ∈ u.map Prod.fst ↔ d ∈ u'.map Prod.fst :=
    fun d => (h.map Prod.fst).mem_iff
  by_cases hall : ∀ k ∈ u.map Prod.fst, dp k ≠ none
  · have hall' : ∀ k ∈ u'.map Prod.fst, dp k ≠ none :=
      fun k hk => hall k ((hmem k).mpr hk)
    obtain ⟨r, hr, hv⟩ := rangeM_rmUsageEntry u dp hall
    obtain ⟨r', hr', hv'⟩ := rangeM_rmUsageEntry u' dp hall'
    rw [hr, hr']
    congr 1
    funext d
    rw [hv d, hv' d, usageFor_perm u u' d h]
    by_cases hd : d ∈ u.map Prod.fst
    · rw [if_pos hd, if_pos ((hmem d).mp hd)]
    · rw [if_neg hd, if_neg (fun h' => hd ((hmem d).mpr h'))]
  · have hex : ∃ k ∈ u.map Prod.fst, dp k = none := by
      by_contra hcon
      exact hall (fun k hk hnone => hcon ⟨k, hk, hnone⟩)
    obtain ⟨k, hk, hnone⟩ := hex
    rw [rangeM_rmUsageEntry_missing u dp ⟨k, hk, hnone⟩,
      rangeM_rmUsageEntry_missing u' dp ⟨k, (hmem k).mp hk, hnone⟩]

/-! ## addUsage followed by rmUsage -/

theorem wrap64_add_sub_cancel (x s : Int) (h : isInt64 x) : wrap64 (wrap64 (x + s) - s) = x := by
  rw [wrap64_sub_left, add_sub_cancel_right, wrap64_of_isInt64 h]

theorem isInt64_usedIn (dp : DeviceQuota) (d : String)
    (hwt : ∀ d v, dp d = some v → isInt64 v.Used) : isInt64 (usedIn dp d) := by
  unfold usedIn
  cases h : dp d with
  | none => unfold isInt64; norm_num
  | some v => exact hwt d v h

/-- Within one namespace entry, the loop of `rmUsage` run after the loop of
`addUsage` on the same usage map completes; a dimension of the usage map ends
with its initial counters (0 and 0 if it was created), any other dimension
is untouched. -/
theorem rmUsage_loop_after_addUsage_loop (u : List (String × Int)) (dp : DeviceQuota)
    (hwt : ∀ d v, dp d = some v → isInt64 v.Used) :
    ∃ dp', rangeM rmUsageEntry (u.foldl addUsageEntry dp) u = some dp' ∧
      ∀ d, dp' d =
        if d ∈ u.map Prod.fst then some { Used := usedIn dp d, Limit := limitIn dp d }
        else dp d := by
  have hp : ∀ k ∈ u.map Prod.fst, u.foldl addUsageEntry dp k ≠ none := by
    intro k hk
    rw [foldl_addUsageEntry_apply, if_pos hk]
    simp
  obtain ⟨dp', hrun, hval⟩ := rangeM_rmUsageEntry u _ hp
  refine ⟨dp', hrun, ?_⟩
  intro d
  rw [hval d]
  by_cases hd : d ∈ u.map Prod.fst
  · have h1 : usedIn (u.foldl addUsageEntry dp) d = wrap64 (usedIn dp d + usageFor u d) := by
      simp only [usedIn, foldl_addUsageEntry_apply, if_pos hd]
    have h2 : limitIn (u.foldl addUsageEntry dp) d = limitIn dp d := by
      simp only [limitIn, foldl_addUsageEntry_apply, if_pos hd]
    rw [if_pos hd, if_pos hd, h1, h2, wrap64_add_sub_cancel _ _ (isInt64_usedIn dp d hwt)]
  · rw [if_neg hd, if_neg hd, foldl_addUsageEntry_apply, if_neg hd]

/-- C4: on a ledger whose counters are `int64` values, `addUsage` followed by
`rmUsage` with the same pod and devices completes, and every (namespace,
dimension) pair has its former `Used` and `Limit` (an absent pair counting
as 0); a pair that was present holds exactly its former record.  All sums
and differences are taken with `int64` wrap-around. -/
theorem addUsage_rmUsage_round_trip (nvidia : Nvidia) (q : Ledger) (pod : Pod)
    (podDev : PodDevices) (hq : WellTyped q) :
    ∃ q', rmUsage nvidia (addUsage nvidia q pod podDev) pod podDev = some q' ∧
      ∀ ns d, usedOf q' ns d = usedOf q ns d ∧ limitOf q' ns d = limitOf q ns d ∧
        (∀ v, lookupQ q ns d = some v → lookupQ q' ns d = some v) := by
  by_cases hu : (countPodDevices nvidia podDev).length = 0
  · refine ⟨q, ?_, fun ns d => ⟨rfl, rfl, fun v h => h⟩⟩
    simp [rmUsage, addUsage, hu]
  · cases hns : q pod.Namespace with
    | none =>
      obtain ⟨dp', hrun, hval⟩ := rmUsage_loop_after_addUsage_loop
        (countPodDevices nvidia podDev) emptyDeviceQuota (by simp [emptyDeviceQuota])
      refine ⟨setNs (setNs q pod.Namespace
        ((countPodDevices nvidia podDev).foldl addUsageEntry emptyDeviceQuota)) pod.Namespace dp',
        ?_, ?_⟩
      · simp [rmUsage, addUsage, hu, hns, setNs, hrun, entryOf]
      · intro ns d
        by_cases hn : ns = pod.Namespace
        · subst hn
          by_cases hd : d ∈ (countPodDevices nvidia podDev).map Prod.fst
          · simp [usedOf, limitOf, lookupQ, setNs, hns, hval d, if_pos hd, usedIn, limitIn,
              emptyDeviceQuota]
          · simp [usedOf, limitOf, lookupQ, setNs, hns, hval d, if_neg hd, emptyDeviceQuota]
        · simp [usedOf, limitOf, lookupQ, setNs, hn]
    | some dq =>
      have hwt : ∀ d v, dq d = some v → isInt64 v.Used := by
        intro d v hv
        exact (hq pod.Namespace d v (by simp [lookupQ, hns, hv])).1
      obtain ⟨dp', hrun, hval⟩ := rmUsage_loop_after_addUsage_loop
        (countPodDevices nvidia podDev) dq hwt
      refine ⟨setNs (setNs q pod.Namespace
        ((countPodDevices nvidia podDev).foldl addUsageEntry dq)) pod.Namespace dp', ?_, ?_⟩
      · simp [rmUsage, addUsage, hu, hns, setNs, hrun, entryOf]
      · intro ns d
        by_cases hn : ns = pod.Namespace
        · subst hn
          by_cases hd : d ∈ (countPodDevices nvidia podDev).map Prod.fst
          · cases hv : dq d <;>
              simp [usedOf, limitOf, lookupQ, setNs, hns, hval d, if_pos hd, usedIn, limitIn, hv]
          · simp [usedOf, limitOf, lookupQ, setNs, hns, hval d, if_neg hd]
        · simp [usedOf, limitOf, lookupQ, setNs, hn]

end Scheduler

namespace Scheduler

theorem sampleLedger_wellTyped : WellTyped sampleLedger := by
  intro ns d v h
  simp only [lookupQ, sampleLedger, setNs, init] at h
  split at h
  · cases h
  · rename_i dq hdq
    split at hdq
    · simp only [Option.some.injEq] at hdq
      subst hdq
      simp only [sampleDeviceQuota, setDim, emptyDeviceQuota] at h
      split_ifs at h <;> simp at h <;> subst h <;> (unfold isInt64; norm_num)
    · simp at hdq

theorem addUsage_rmUsage_round_trip_witness :
    WellTyped sampleLedger ∧
    ∃ q', rmUsage sampleNvidia (addUsage sampleNvidia sampleLedger samplePod samplePodDevices)
        samplePod samplePodDevices = some q' ∧
      ∀ ns d, usedOf q' ns d = usedOf sampleLedger ns d ∧
        limitOf q' ns d = limitOf sampleLedger ns d ∧
        (∀ v, lookupQ sampleLedger ns d = some v → lookupQ q' ns d = some v) :=
  ⟨sampleLedger_wellTyped,
    addUsage_rmUsage_round_trip sampleNvidia sampleLedger samplePod samplePodDevices
      sampleLedger_wellTyped⟩

/-! ## addUsage -/

theorem entryOf_apply (q : Ledger) (ns d : String) : entryOf q ns d = lookupQ q ns d := by
  cases h : q ns <;> simp [entryOf, lookupQ, h, emptyDeviceQuota]

theorem usedIn_entryOf (q : Ledger) (ns d : String) : usedIn (entryOf q ns) d = usedOf q ns d := by
  simp [usedIn, usedOf, entryOf_apply]

theorem limitIn_entryOf (q : Ledger) (ns d : String) :
    limitIn (entryOf q ns) d = limitOf q ns d := by
  simp [limitIn, limitOf, entryOf_apply]

theorem relevantDevices_filter (podDev : PodDevices) :
    relevantDevices (podDev.filter (fun entry => stringsContains entry.1 "NVIDIA")) =
      relevantDevices podDev := by
  simp [relevantDevices, List.filter_filter]

/-- C5: `addUsage` leaves the ledger as it is when no device is listed under a
resource name containing "NVIDIA"; otherwise the pod's namespace ends with
an entry whose memory and cores dimensions hold the former `Used` (0 if
absent) plus the sum of `Usedmem`, respectively `Usedcores`, over the devices
under resource names containing "NVIDIA" (the sum taken in `int64`, hence
exact when it stays in range), with the former `Limit` (0 if created).
Entries under other resource names do not influence the result. -/
theorem addUsage_applies_aggregate_delta (nvidia : Nvidia) (q : Ledger) (pod : Pod)
    (podDev : PodDevices) (hne : nvidia.ResourceMem ≠ nvidia.ResourceCores) :
    (relevantDevices podDev = [] → addUsage nvidia q pod podDev = q) ∧
    (relevantDevices podDev ≠ [] →
      ∃ dq m c, addUsage nvidia q pod podDev pod.Namespace = some dq ∧
        dq nvidia.ResourceMem = some m ∧ dq nvidia.ResourceCores = some c ∧
        m.Used = wrap64 (usedOf q pod.Namespace nvidia.ResourceMem + sumMem podDev) ∧
        c.Used = wrap64 (usedOf q pod.Namespace nvidia.ResourceCores + sumCores podDev) ∧
        (isInt64 (usedOf q pod.Namespace nvidia.ResourceMem + sumMem podDev) →
          m.Used = usedOf q pod.Namespace nvidia.ResourceMem + sumMem podDev) ∧
        (isInt64 (usedOf q pod.Namespace nvidia.ResourceCores + sumCores podDev) →
          c.Used = usedOf q pod.Namespace nvidia.ResourceCores + sumCores podDev) ∧
        m.Limit = limitOf q pod.Namespace nvidia.ResourceMem ∧
        c.Limit = limitOf q pod.Namespace nvidia.ResourceCores) ∧
    addUsage nvidia q pod podDev =
      addUsage nvidia q pod (podDev.filter (fun entry => stringsContains entry.1 "NVIDIA")) := by
  have hne' : ¬ nvidia.ResourceCores = nvidia.ResourceMem := fun h => hne h.symm
  refine ⟨?_, ?_, ?_⟩
  · intro h
    have hu := (countPodDevices_eq_nil_iff nvidia podDev).mpr h
    simp [addUsage, hu]
  · intro h
    have hu := countPodDevices_of_ne nvidia hne podDev
    rw [if_neg h] at hu
    have hm : wrap64 (usedOf q pod.Namespace nvidia.ResourceMem + wrap64 (sumMem podDev)) =
        wrap64 (usedOf q pod.Namespace nvidia.ResourceMem + sumMem podDev) :=
      wrap64_add_right _ _
    have hc : wrap64 (usedOf q pod.Namespace nvidia.ResourceCores + wrap64 (sumCores podDev)) =
        wrap64 (usedOf q pod.Namespace nvidia.ResourceCores + sumCores podDev) :=
      wrap64_add_right _ _
    refine ⟨[(nvidia.ResourceMem, wrap64 (sumMem podDev)),
        (nvidia.ResourceCores, wrap64 (sumCores podDev))].foldl addUsageEntry
        (entryOf q pod.Namespace),
      { Used := wrap64 (usedOf q pod.Namespace nvidia.ResourceMem + sumMem podDev),
                 Limit := limitOf q pod.Namespace nvidia.ResourceMem },
      { Used := wrap64 (usedOf q pod.Namespace nvidia.ResourceCores + sumCores podDev),
        Limit := limitOf q pod.Namespace nvidia.ResourceCores }, ?_, ?_, ?_, rfl, rfl,
      fun hr => wrap64_of_isInt64 hr, fun hr => wrap64_of_isInt64 hr, rfl, rfl⟩
    · simp [addUsage, hu, setNs]
    · rw [foldl_addUsageEntry_apply, usedIn_entryOf, limitIn_entryOf]
      simp [usageFor, hne', hm]
    · rw [foldl_addUsageEntry_apply, usedIn_entryOf, limitIn_entryOf]
      simp [usageFor, hne, hc]
  · simp only [addUsage, countPodDevices_eq, relevantDevices_filter]

end Scheduler

namespace Scheduler

theorem addUsage_applies_aggregate_delta_witness :
    sampleNvidia.ResourceMem ≠ sampleNvidia.ResourceCores ∧
    relevantDevices samplePodDevices ≠ [] ∧
    ∃ dq m c, addUsage sampleNvidia sampleLedger samplePod samplePodDevices "team-a" = some dq ∧
      dq "nvidia.com/gpumem" = some m ∧ dq "nvidia.com/gpucores" = some c ∧
      m.Used = wrap64 (usedOf sampleLedger "team-a" "nvidia.com/gpumem" + sumMem samplePodDevices) ∧
      c.Used =
        wrap64 (usedOf sampleLedger "team-a" "nvidia.com/gpucores" + sumCores samplePodDevices) ∧
      (isInt64 (usedOf sampleLedger "team-a" "nvidia.com/gpumem" + sumMem samplePodDevices) →
        m.Used = usedOf sampleLedger "team-a" "nvidia.com/gpumem" + sumMem samplePodDevices) ∧
      (isInt64 (usedOf sampleLedger "team-a" "nvidia.com/gpucores" + sumCores samplePodDevices) →
        c.Used = usedOf sampleLedger "team-a" "nvidia.com/gpucores" + sumCores samplePodDevices) ∧
      m.Limit = limitOf sampleLedger "team-a" "nvidia.com/gpumem" ∧
      c.Limit = limitOf sampleLedger "team-a" "nvidia.com/gpucores" :=
  ⟨by decide, by decide,
    (addUsage_applies_aggregate_delta sampleNvidia sampleLedger samplePod samplePodDevices
      (by decide)).2.1 (by decide)⟩

/-! ## addQuota and delQuota -/

theorem length_requests : "requests.".length = 9 := by decide

theorem dimensionName_of_requests_key (idx : String) (h : hasRequestsPrefix idx) :
    dimensionName idx = some ⟨idx.data.drop 9⟩ := by
  obtain ⟨rest, hrest⟩ := h
  have hlen : 9 ≤ idx.length := by
    have : idx.length = ("requests.".data ++ rest).length := by rw [hrest]; rfl
    rw [this, List.length_append]
    have : "requests.".data.length = 9 := by decide
    omega
  simp [dimensionName, sliceFrom, length_requests, hlen]

/-- A key of the form "requests.<d>" is determined by its dimension name. -/
theorem key_eq_of_dimensionName (k k' d : String) (hk : hasRequestsPrefix k)
    (hk' : hasRequestsPrefix k') (hd : dimensionName k = some d)
    (hd' : dimensionName k' = some d) : k = k' := by
  rw [dimensionName_of_requests_key k hk] at hd
  rw [dimensionName_of_requests_key k' hk'] at hd'
  obtain ⟨rest, hrest⟩ := hk
  obtain ⟨rest', hrest'⟩ := hk'
  have h9 : "requests.".data.length = 9 := by decide
  have e1 : rest = d.data := by
    have := congrArg String.data (Option.some.inj hd)
    simpa [← hrest, List.drop_append_of_le_length, h9] using this
  have e2 : rest' = d.data := by
    have := congrArg String.data (Option.some.inj hd')
    simpa [← hrest', List.drop_append_of_le_length, h9] using this
  have : k.data = k'.data := by rw [← hrest, ← hrest', e1, e2]
  exact String.ext this

end Scheduler

namespace Scheduler

theorem recognized_iff (nvidia : Nvidia) (dn : String) :
    (!stringsContains dn nvidia.ResourceMem && !stringsContains dn nvidia.ResourceCores) =
      !recognized nvidia dn := by
  simp [recognized]

theorem lookupQ_setNs_same (q : Ledger) (ns : String) (dq : DeviceQuota) (d : String) :
    lookupQ (setNs q ns dq) ns d = dq d := by
  simp [lookupQ, setNs]

theorem lookupQ_setNs_other (q : Ledger) (ns ns' : String) (dq : DeviceQuota) (d : String)
    (h : ns' ≠ ns) : lookupQ (setNs q ns dq) ns' d = lookupQ q ns' d := by
  simp [lookupQ, setNs, h]

theorem addQuotaEntry_not_ok (nvidia : Nvidia) (ns : String) (q : Ledger)
    (e : String × Quantity) (h : e.2.AsInt64 = none) : addQuotaEntry nvidia ns q e = some q := by
  simp [addQuotaEntry, h]

theorem addQuotaEntry_unrecognized (nvidia : Nvidia) (ns : String) (q : Ledger)
    (e : String × Quantity) (v : Int) (d : String) (hv : e.2.AsInt64 = some v)
    (hd : dimensionName e.1 = some d) (hr : recognized nvidia d = false) :
    addQuotaEntry nvidia ns q e = some q := by
  simp [addQuotaEntry, hv, hd, recognized_iff, hr]

/-- The body of the loop of `addQuota` on an entry it acts on: the dimension
gets the parsed limit and keeps its `Used` (0 if it is created). -/
theorem addQuotaEntry_named (nvidia : Nvidia) (ns : String) (q : Ledger)
    (e : String × Quantity) (v : Int) (d : String) (hv : e.2.AsInt64 = some v)
    (hd : dimensionName e.1 = some d) (hr : recognized nvidia d = true) :
    addQuotaEntry nvidia ns q e =
      some (setNs q ns (setDim (entryOf q ns) d { Used := usedOf q ns d, Limit := v })) := by
  simp only [addQuotaEntry, hv, hd, recognized_iff, hr]
  cases h : entryOf q ns d with
  | none =>
    have : usedOf q ns d = 0 := by simp [usedOf, ← entryOf_apply, h]
    simp [this]
  | some x =>
    have : usedOf q ns d = x.Used := by simp [usedOf, ← entryOf_apply, h]
    simp [this]

/-- One step of the loop of `addQuota`, seen on the lookups. -/
theorem addQuotaEntry_lookup (nvidia : Nvidia) (ns : String) (q : Ledger)
    (e : String × Quantity) (hlen : e.2.AsInt64 ≠ none → dimensionName e.1 ≠ none) :
    ∃ q', addQuotaEntry nvidia ns q e = some q' ∧
      (∀ ns', ns' ≠ ns → q' ns' = q ns') ∧
      (∀ d, usedOf q' ns d = usedOf q ns d) ∧
      ∀ d, lookupQ q' ns d =
        match lastLimit nvidia [e] d with
        | some v => some { Used := usedOf q ns d, Limit := v }
        | none => lookupQ q ns d := by
  cases hv : e.2.AsInt64 with
  | none =>
    exact ⟨q, addQuotaEntry_not_ok nvidia ns q e hv, fun _ _ => rfl, fun _ => rfl,
      fun d => by simp [lastLimit, hv]⟩
  | some v =>
    obtain ⟨dn, hdn⟩ := Option.ne_none_iff_exists'.mp (hlen (by simp [hv]))
    cases hr : recognized nvidia dn with
    | false =>
      refine ⟨q, addQuotaEntry_unrecognized nvidia ns q e v dn hv hdn hr, fun _ _ => rfl,
        fun _ => rfl, fun d => ?_⟩
      by_cases hd : dn = d
      · subst hd
        simp [lastLimit, hv, hdn, hr]
      · simp [lastLimit, hv, hdn, hd]
    | true =>
      refine ⟨_, addQuotaEntry_named nvidia ns q e v dn hv hdn hr, ?_, ?_, ?_⟩
      · intro ns' h
        simp [setNs, h]
      · intro d
        by_cases hd : d = dn
        · simp [usedOf, lookupQ_setNs_same, setDim, hd]
        · simp [usedOf, lookupQ_setNs_same, setDim, hd, entryOf_apply]
      · intro d
        rw [lookupQ_setNs_same]
        by_cases hd : dn = d
        · subst hd
          simp [lastLimit, hv, hdn, hr, setDim]
        · have hd' : ¬ d = dn := fun h => hd h.symm
          simp [lastLimit, hv, hdn, hd, hd', setDim, entryOf_apply]

end Scheduler

namespace Scheduler

theorem lastLimit_cons (nvidia : Nvidia) (e : String × Quantity) (t : List (String × Quantity))
    (d : String) :
    lastLimit nvidia (e :: t) d =
      match lastLimit nvidia t d with
      | some v => some v
      | none => lastLimit nvidia [e] d := by
  cases h : lastLimit nvidia t d <;> simp [lastLimit, h]

/-- The loop of `addQuota` completes when every converting entry has a key of
at least 9 bytes; other namespaces are untouched, no `Used` changes, and a
dimension ends with the limit of the last entry naming it. -/
theorem addQuota_loop (nvidia : Nvidia) (ns : String) (hard : List (String × Quantity))
    (q : Ledger)
    (hlen : ∀ e ∈ hard, e.2.AsInt64 ≠ none → dimensionName e.1 ≠ none) :
    ∃ q', rangeM (addQuotaEntry nvidia ns) q hard = some q' ∧
      (∀ ns', ns' ≠ ns → q' ns' = q ns') ∧
      (∀ d, usedOf q' ns d = usedOf q ns d) ∧
      ∀ d, lookupQ q' ns d =
        match lastLimit nvidia hard d with
        | some v => some { Used := usedOf q ns d, Limit := v }
        | none => lookupQ q ns d := by
  induction hard generalizing q with
  | nil => exact ⟨q, rfl, fun _ _ => rfl, fun _ => rfl, fun d => by simp [lastLimit]⟩
  | cons e t ih =>
    obtain ⟨q1, hstep, hother1, hused1, hlook1⟩ :=
      addQuotaEntry_lookup nvidia ns q e (hlen e (List.mem_cons_self e t))
    obtain ⟨q', hrun, hother, hused, hlook⟩ :=
      ih q1 (fun e' he' => hlen e' (List.mem_cons_of_mem e he'))
    refine ⟨q', by simp [rangeM, hstep, hrun], ?_, ?_, ?_⟩
    · intro ns' h
      rw [hother ns' h, hother1 ns' h]
    · intro d
      rw [hused d, hused1 d]
    · intro d
      rw [hlook d, lastLimit_cons, hused1 d, hlook1 d]
      cases lastLimit nvidia t d <;> rfl

theorem lastLimit_some_mem (nvidia : Nvidia) (hard : List (String × Quantity)) (d : String)
    (v : Int) (h : lastLimit nvidia hard d = some v) :
    ∃ e ∈ hard, e.2.AsInt64 = some v ∧ dimensionName e.1 = some d ∧
      recognized nvidia d = true := by
  induction hard with
  | nil => simp [lastLimit] at h
  | cons e t ih =>
    rw [lastLimit_cons] at h
    cases ht : lastLimit nvidia t d with
    | some w =>
      rw [ht] at h
      obtain ⟨e', he', hp⟩ := ih (by rw [ht]; exact h)
      exact ⟨e', List.mem_cons_of_mem e he', hp⟩
    | none =>
      rw [ht] at h
      simp only [lastLimit] at h
      cases hv : e.2.AsInt64 with
      | none => simp [hv] at h
      | some w =>
        simp only [hv] at h
        split_ifs at h with hc
        exact ⟨e, List.mem_cons_self e t, by rw [hv, ← Option.some.inj h], hc.1, hc.2⟩

theorem lastLimit_none_iff (nvidia : Nvidia) (hard : List (String × Quantity)) (d : String) :
    lastLimit nvidia hard d = none ↔ ¬ ∃ e ∈ hard, names nvidia e d := by
  induction hard with
  | nil => simp [lastLimit]
  | cons e t ih =>
    rw [lastLimit_cons]
    cases ht : lastLimit nvidia t d with
    | some w =>
      have : ∃ e ∈ t, names nvidia e d := by
        by_contra hcon
        rw [ih.mpr hcon] at ht
        cases ht
      obtain ⟨e', he', hn⟩ := this
      simp only [reduceCtorEq, false_iff, not_not]
      exact ⟨e', List.mem_cons_of_mem e he', hn⟩
    | none =>
      have hnt : ¬ ∃ e ∈ t, names nvidia e d := ih.mp ht
      simp only [lastLimit]
      constructor
      · intro h ⟨e', he', hn⟩
        rcases List.mem_cons.mp he' with rfl | he'
        · obtain ⟨h1, h2, h3⟩ := hn
          obtain ⟨w, hw⟩ := Option.ne_none_iff_exists'.mp h1
          simp [hw, h2, h3] at h
        · exact hnt ⟨e', he', hn⟩
      · intro h
        cases hv : e.2.AsInt64 with
        | none => rfl
        | some w =>
          by_cases hc : dimensionName e.1 = some d ∧ recognized nvidia d = true
          · exact absurd ⟨e, List.mem_cons_self e t, by simp [hv], hc.1, hc.2⟩ h
          · simp [hc]

end Scheduler

namespace Scheduler

theorem hasRequestsPrefix_append (d : String) : hasRequestsPrefix ("requests." ++ d) := by
  unfold hasRequestsPrefix
  rw [String.data_append]
  exact List.prefix_append _ _

theorem dimensionName_append (d : String) : dimensionName ("requests." ++ d) = some d := by
  rw [dimensionName_of_requests_key _ (hasRequestsPrefix_append d), String.data_append]
  have h9 : "requests.".data.length = 9 := by decide
  simp [List.drop_append_of_le_length, h9]

theorem eq_of_mem_of_key_eq {β : Type} (l : List (String × β)) (h : (l.map Prod.fst).Nodup)
    (a b : String × β) (ha : a ∈ l) (hb : b ∈ l) (hab : a.1 = b.1) : a = b :=
  List.inj_on_of_nodup_map h ha hb hab

/-- C6: for a quota object with pairwise distinct keys (it is a Go map), all
of the form "requests.<d>", `addQuota` completes; every entry whose value
converts to `val` and whose dimension name `d` contains the memory or the
cores marker leaves `ledger[ns][d]` with `Limit = val` and the former `Used`
(0 if the dimension is created); every other namespace's entry and every
dimension of `ns` not named by such an entry is unchanged. -/
theorem addQuota_sets_limits (nvidia : Nvidia) (q : Ledger) (quota : ResourceQuota)
    (hkeys : (quota.Hard.map Prod.fst).Nodup)
    (hpre : ∀ e ∈ quota.Hard, hasRequestsPrefix e.1) :
    ∃ q', addQuota nvidia q quota = some q' ∧
      (∀ d qty val, ("requests." ++ d, qty) ∈ quota.Hard → qty.AsInt64 = some val →
        (stringsContains d nvidia.ResourceMem = true ∨
          stringsContains d nvidia.ResourceCores = true) →
        lookupQ q' quota.Namespace d =
          some { Used := usedOf q quota.Namespace d, Limit := val }) ∧
      (∀ ns, ns ≠ quota.Namespace → q' ns = q ns) ∧
      (∀ d, (¬ ∃ e ∈ quota.Hard, names nvidia e d) →
        lookupQ q' quota.Namespace d = lookupQ q quota.Namespace d) := by
  have hlen : ∀ e ∈ quota.Hard, e.2.AsInt64 ≠ none → dimensionName e.1 ≠ none := by
    intro e he _
    rw [dimensionName_of_requests_key e.1 (hpre e he)]
    simp
  obtain ⟨q', hrun, hother, _, hlook⟩ := addQuota_loop nvidia quota.Namespace quota.Hard q hlen
  refine ⟨q', hrun, ?_, hother, ?_⟩
  · intro d qty val hmem hval hrec
    have hr : recognized nvidia d = true := by
      simpa [recognized] using hrec
    have hnamed : ∃ e ∈ quota.Hard, names nvidia e d :=
      ⟨_, hmem, by simp [hval], dimensionName_append d, hr⟩
    cases hl : lastLimit nvidia quota.Hard d with
    | none => exact absurd hnamed ((lastLimit_none_iff nvidia quota.Hard d).mp hl)
    | some w =>
      obtain ⟨e', he', hv', hd', _⟩ := lastLimit_some_mem nvidia quota.Hard d w hl
      have hkey : e'.1 = "requests." ++ d :=
        key_eq_of_dimensionName _ _ d (hpre e' he') (hasRequestsPrefix_append d) hd'
          (dimensionName_append d)
      have hsame : e' = ("requests." ++ d, qty) :=
        eq_of_mem_of_key_eq quota.Hard hkeys _ _ he' hmem hkey
      have hw : w = val := by
        rw [hsame] at hv'
        rw [hval] at hv'
        exact (Option.some.inj hv').symm
      rw [hlook d, hl, hw]
  · intro d hd
    rw [hlook d, (lastLimit_none_iff nvidia quota.Hard d).mpr hd]

end Scheduler

namespace Scheduler

theorem addQuota_sets_limits_witness :
    (sampleQuota.Hard.map Prod.fst).Nodup ∧
    (∀ e ∈ sampleQuota.Hard, hasRequestsPrefix e.1) ∧
    ∃ q', addQuota sampleNvidia sampleLedger sampleQuota = some q' ∧
      lookupQ q' "team-a" "nvidia.com/gpumem" = some { Used := 5, Limit := 64 } ∧
      lookupQ q' "team-a" "nvidia.com/gpucores" = some { Used := 20, Limit := 100 } ∧
      q' "team-b" = none :=
  ⟨by decide, by decide,
    match addQuota_sets_limits sampleNvidia sampleLedger sampleQuota (by decide) (by decide) with
    | ⟨q', hrun, hset, hother, hrest⟩ =>
      ⟨q', hrun,
        hset "nvidia.com/gpumem" { AsInt64 := some 64 } 64 (by decide) rfl (Or.inl (by decide)),
        (hrest "nvidia.com/gpucores" (by
          rintro ⟨e, he, h1, h2, _⟩
          simp only [sampleQuota, List.mem_cons, List.mem_singleton, List.not_mem_nil,
            or_false] at he
          rcases he with rfl | rfl | rfl
          · revert h2; decide
          · revert h2; decide
          · exact h1 rfl)).trans (by decide),
        (hother "team-b" (by decide)).trans rfl⟩⟩

end Scheduler

namespace Scheduler

theorem delQuotaEntry_not_ok (nvidia : Nvidia) (ns : String) (q : Ledger)
    (e : String × Quantity) (h : e.2.AsInt64 = none) : delQuotaEntry nvidia ns q e = some q := by
  simp [delQuotaEntry, h]

theorem delQuotaEntry_unrecognized (nvidia : Nvidia) (ns : String) (q : Ledger)
    (e : String × Quantity) (v : Int) (d : String) (hv : e.2.AsInt64 = some v)
    (hd : dimensionName e.1 = some d) (hr : recognized nvidia d = false) :
    delQuotaEntry nvidia ns q e = some q := by
  simp [delQuotaEntry, hv, hd, recognized_iff, hr]

/-- The body of the loop of `delQuota` on an entry it acts on, when the
dimension is present: the limit becomes 0 and `Used` stays. -/
theorem delQuotaEntry_named (nvidia : Nvidia) (ns : String) (q : Ledger)
    (e : String × Quantity) (v : Int) (d : String) (x : Quota) (hv : e.2.AsInt64 = some v)
    (hd : dimensionName e.1 = some d) (hr : recognized nvidia d = true)
    (hx : lookupQ q ns d = some x) :
    delQuotaEntry nvidia ns q e =
      some (setNs q ns (setDim (entryOf q ns) d { Used := x.Used, Limit := 0 })) := by
  unfold lookupQ at hx
  cases hq : q ns with
  | none => simp [hq] at hx
  | some dq =>
    simp only [hq] at hx
    simp [delQuotaEntry, hv, hd, recognized_iff, hr, hq, hx, entryOf]

/-- One step of the loop of `delQuota`, seen on the lookups. -/
theorem delQuotaEntry_lookup (nvidia : Nvidia) (ns : String) (q : Ledger)
    (e : String × Quantity) (hlen : e.2.AsInt64 ≠ none → dimensionName e.1 ≠ none)
    (hex : ∀ d, names nvidia e d → lookupQ q ns d ≠ none) :
    ∃ q', delQuotaEntry nvidia ns q e = some q' ∧
      (∀ ns', ns' ≠ ns → q' ns' = q ns') ∧
      (∀ d, usedOf q' ns d = usedOf q ns d) ∧
      (∀ d, lookupQ q ns d ≠ none → lookupQ q' ns d ≠ none) ∧
      ∀ d, lookupQ q' ns d =
        match lastLimit nvidia [e] d with
        | some _ => some { Used := usedOf q ns d, Limit := 0 }
        | none => lookupQ q ns d := by
  cases hv : e.2.AsInt64 with
  | none =>
    exact ⟨q, delQuotaEntry_not_ok nvidia ns q e hv, fun _ _ => rfl, fun _ => rfl,
      fun _ h => h, fun d => by simp [lastLimit, hv]⟩
  | some v =>
    obtain ⟨dn, hdn⟩ := Option.ne_none_iff_exists'.mp (hlen (by simp [hv]))
    cases hr : recognized nvidia dn with
    | false =>
      refine ⟨q, delQuotaEntry_unrecognized nvidia ns q e v dn hv hdn hr, fun _ _ => rfl,
        fun _ => rfl, fun _ h => h, fun d => ?_⟩
      by_cases hd : dn = d
      · subst hd
        simp [lastLimit, hv, hdn, hr]
      · simp [lastLimit, hv, hdn, hd]
    | true =>
      obtain ⟨x, hx⟩ := Option.ne_none_iff_exists'.mp (hex dn ⟨by simp [hv], hdn, hr⟩)
      have hux : usedOf q ns dn = x.Used := by simp [usedOf, hx]
      refine ⟨_, delQuotaEntry_named nvidia ns q e v dn x hv hdn hr hx, ?_, ?_, ?_, ?_⟩
      · intro ns' h
        simp [setNs, h]
      · intro d
        by_cases hd : d = dn
        · simp [usedOf, lookupQ_setNs_same, setDim, hd, hx]
        · simp [usedOf, lookupQ_setNs_same, setDim, hd, entryOf_apply]
      · intro d h
        rw [lookupQ_setNs_same]
        by_cases hd : d = dn
        · simp [setDim, hd]
        · simpa [setDim, hd, entryOf_apply] using h
      · intro d
        rw [lookupQ_setNs_same]
        by_cases hd : dn = d
        · subst hd
          simp [lastLimit, hv, hdn, hr, setDim, hux]
        · have hd' : ¬ d = dn := fun h => hd h.symm
          simp [lastLimit, hv, hdn, hd, hd', setDim, entryOf_apply]

/-- The loop of `delQuota` completes when every converting entry has a key of
at least 9 bytes and every dimension it acts on is present; other namespaces
are untouched, no `Used` changes, no dimension disappears, and exactly the
dimensions named by an entry end with `Limit = 0`. -/
theorem delQuota_loop (nvidia : Nvidia) (ns : String) (hard : List (String × Quantity))
    (q : Ledger)
    (hlen : ∀ e ∈ hard, e.2.AsInt64 ≠ none → dimensionName e.1 ≠ none)
    (hex : ∀ e ∈ hard, ∀ d, names nvidia e d → lookupQ q ns d ≠ none) :
    ∃ q', rangeM (delQuotaEntry nvidia ns) q hard = some q' ∧
      (∀ ns', ns' ≠ ns → q' ns' = q ns') ∧
      (∀ d, usedOf q' ns d = usedOf q ns d) ∧
      (∀ d, lookupQ q ns d ≠ none → lookupQ q' ns d ≠ none) ∧
      ∀ d, lookupQ q' ns d =
        match lastLimit nvidia hard d with
        | some _ => some { Used := usedOf q ns d, Limit := 0 }
        | none => lookupQ q ns d := by
  induction hard generalizing q with
  | nil =>
    exact ⟨q, rfl, fun _ _ => rfl, fun _ => rfl, fun _ h => h, fun d => by simp [lastLimit]⟩
  | cons e t ih =>
    obtain ⟨q1, hstep, hother1, hused1, hkeep1, hlook1⟩ :=
      delQuotaEntry_lookup nvidia ns q e (hlen e (List.mem_cons_self e t))
        (hex e (List.mem_cons_self e t))
    obtain ⟨q', hrun, hother, hused, hkeep, hlook⟩ :=
      ih q1 (fun e' he' => hlen e' (List.mem_cons_of_mem e he'))
        (fun e' he' d hn => hkeep1 d (hex e' (List.mem_cons_of_mem e he') d hn))
    refine ⟨q', by simp [rangeM, hstep, hrun], ?_, ?_, ?_, ?_⟩
    · intro ns' h
      rw [hother ns' h, hother1 ns' h]
    · intro d
      rw [hused d, hused1 d]
    · intro d h
      exact hkeep d (hkeep1 d h)
    · intro d
      rw [hlook d, lastLimit_cons, hused1 d, hlook1 d]
      cases lastLimit nvidia t d <;> rfl

/-- C7: for a quota object whose keys all have the form "requests.<d>" and
whose recognized, integer-valued dimensions are all present in `ledger[ns]`,
`delQuota` completes; each such dimension is still present with `Limit = 0`
and its former `Used`; every dimension not named by such an entry and every
other namespace is unchanged. -/
theorem delQuota_resets_named_limits (nvidia : Nvidia) (q : Ledger) (quota : ResourceQuota)
    (hpre : ∀ e ∈ quota.Hard, hasRequestsPrefix e.1)
    (hex : ∀ d qty val, ("requests." ++ d, qty) ∈ quota.Hard → qty.AsInt64 = some val →
      (stringsContains d nvidia.ResourceMem = true ∨
        stringsContains d nvidia.ResourceCores = true) →
      lookupQ q quota.Namespace d ≠ none) :
    ∃ q', delQuota nvidia q quota = some q' ∧
      (∀ d qty val, ("requests." ++ d, qty) ∈ quota.Hard → qty.AsInt64 = some val →
        (stringsContains d nvidia.ResourceMem = true ∨
          stringsContains d nvidia.ResourceCores = true) →
        lookupQ q' quota.Namespace d =
          some { Used := usedOf q quota.Namespace d, Limit := 0 }) ∧
      (∀ ns, ns ≠ quota.Namespace → q' ns = q ns) ∧
      (∀ d, (¬ ∃ e ∈ quota.Hard, names nvidia e d) →
        lookupQ q' quota.Namespace d = lookupQ q quota.Namespace d) := by
  have hlen : ∀ e ∈ quota.Hard, e.2.AsInt64 ≠ none → dimensionName e.1 ≠ none := by
    intro e he _
    rw [dimensionName_of_requests_key e.1 (hpre e he)]
    simp
  have hex' : ∀ e ∈ quota.Hard, ∀ d, names nvidia e d →
      lookupQ q quota.Namespace d ≠ none := by
    intro e he d hn
    obtain ⟨h1, h2, h3⟩ := hn
    obtain ⟨val, hval⟩ := Option.ne_none_iff_exists'.mp h1
    have hkey : e.1 = "requests." ++ d :=
      key_eq_of_dimensionName _ _ d (hpre e he) (hasRequestsPrefix_append d) h2
        (dimensionName_append d)
    have hmem : ("requests." ++ d, e.2) ∈ quota.Hard := by
      rw [← hkey]
      exact he
    exact hex d e.2 val hmem hval (by simpa [recognized] using h3)
  obtain ⟨q', hrun, hother, _, _, hlook⟩ :=
    delQuota_loop nvidia quota.Namespace quota.Hard q hlen hex'
  refine ⟨q', hrun, ?_, hother, ?_⟩
  · intro d qty val hmem hval hrec
    have hr : recognized nvidia d = true := by
      simpa [recognized] using hrec
    have hnamed : ∃ e ∈ quota.Hard, names nvidia e d :=
      ⟨_, hmem, by simp [hval], dimensionName_append d, hr⟩
    cases hl : lastLimit nvidia quota.Hard d with
    | none => exact absurd hnamed ((lastLimit_none_iff nvidia quota.Hard d).mp hl)
    | some w => rw [hlook d, hl]
  · intro d hd
    rw [hlook d, (lastLimit_none_iff nvidia quota.Hard d).mpr hd]

end Scheduler

namespace Scheduler

theorem eq_of_requests_append_eq (d k dn : String) (h : "requests." ++ d = k)
    (hk : dimensionName k = some dn) : d = dn := by
  have := dimensionName_append d
  rw [h, hk] at this
  exact (Option.some.inj this).symm

theorem sampleQuota_dimensions_present :
    ∀ d qty val, ("requests." ++ d, qty) ∈ sampleQuota.Hard → qty.AsInt64 = some val →
      (stringsContains d sampleNvidia.ResourceMem = true ∨
        stringsContains d sampleNvidia.ResourceCores = true) →
      lookupQ sampleLedger sampleQuota.Namespace d ≠ none := by
  intro d qty val hmem hval hrec
  simp only [sampleQuota, List.mem_cons, List.mem_singleton, List.not_mem_nil, or_false,
    Prod.mk.injEq] at hmem
  rcases hmem with ⟨hk, _⟩ | ⟨hk, _⟩ | ⟨_, hq⟩
  · have hd := eq_of_requests_append_eq d _ "nvidia.com/gpumem" hk (by decide)
    subst hd
    decide
  · have hd := eq_of_requests_append_eq d _ "cpu" hk (by decide)
    subst hd
    revert hrec
    decide
  · subst hq
    cases hval

theorem delQuota_resets_named_limits_witness :
    (∀ e ∈ sampleQuota.Hard, hasRequestsPrefix e.1) ∧
    ∃ q', delQuota sampleNvidia sampleLedger sampleQuota = some q' ∧
      lookupQ q' "team-a" "nvidia.com/gpumem" = some { Used := 5, Limit := 0 } ∧
      q' "team-b" = none :=
  ⟨by decide,
    match delQuota_resets_named_limits sampleNvidia sampleLedger sampleQuota (by decide)
      sampleQuota_dimensions_present with
    | ⟨q', hrun, hset, hother, _⟩ =>
      ⟨q', hrun,
        hset "nvidia.com/gpumem" { AsInt64 := some 64 } 64 (by decide) rfl (Or.inl (by decide)),
        (hother "team-b" (by decide)).trans rfl⟩⟩

end Scheduler

namespace Rm

/-! ## DeviceMap.insert -/

/-- The four cases of `TestDeviceMapInsert` hold of the modelled `insert`. -/
theorem TestDeviceMapInsert_cases :
    insert (emptyMap Unit) "resource" device0 = resourceWithDevice0 ∧
    insert resourceWithDevice0 "resource" device1 = expectedAddToExisting ∧
    insert resourceWithDevice0 "resource1" device0 = expectedAddNewResource ∧
    insert resourceWithDevice0 "resource" device0withIndex = expectedOverwrite := by
  refine ⟨?_, ?_, ?_, ?_⟩
  · funext r
    by_cases h : r = "resource"
    · subst h
      simp only [insert, emptyMap, resourceWithDevice0, if_true, Option.some.injEq]
      funext id
      simp [device0]
    · simp [insert, emptyMap, resourceWithDevice0, h]
  · funext r
    by_cases h : r = "resource"
    · subst h
      simp only [insert, expectedAddToExisting, resourceWithDevice0, if_true, Option.some.injEq]
      funext id
      by_cases h0 : id = "0"
      · subst h0
        simp [device1]
      · simp [h0, device1]
    · simp [insert, expectedAddToExisting, resourceWithDevice0, h]
  · funext r
    by_cases h : r = "resource"
    · subst h
      simp [insert, expectedAddNewResource, resourceWithDevice0]
    · by_cases h1 : r = "resource1"
      · subst h1
        simp only [insert, expectedAddNewResource, resourceWithDevice0, if_true]
        simp [device0]
      · simp [insert, expectedAddNewResource, resourceWithDevice0, h, h1]
  · funext r
    by_cases h : r = "resource"
    · subst h
      simp only [insert, expectedOverwrite, resourceWithDevice0, if_true, Option.some.injEq]
      funext id
      by_cases h0 : id = "0"
      · subst h0
        simp [device0withIndex]
      · simp [h0, device0withIndex]
    · simp [insert, expectedOverwrite, resourceWithDevice0, h]

/-- C8: after `insert m R D` the lookup `m[R][D.ID]` yields exactly `D`,
whatever `m` held before (no entry for `R`, an entry without `D.ID`, or an
entry with a device of the same ID, which is replaced); the operation is
total; and inserting into the empty map yields exactly `{R: {D.ID: D}}`. -/
theorem insert_is_total_upsert {V : Type} (m : DeviceMap V) (R : String) (D : Device V) :
    lookupDev (insert m R D) R D.ID = some D ∧
    (∃ ds, insert m R D R = some ds ∧ ds D.ID = some D) ∧
    insert (emptyMap V) R D =
      fun r => if r = R then some (fun id => if id = D.ID then some D else none) else none := by
  have hlook : lookupDev (insert m R D) R D.ID = some D := by
    simp [lookupDev, insert]
  refine ⟨hlook, ?_, ?_⟩
  · have hsome : ∃ ds, insert m R D R = some ds := by
      simp [insert]
    obtain ⟨ds, hds⟩ := hsome
    refine ⟨ds, hds, ?_⟩
    simpa [lookupDev, hds] using hlook
  · funext r
    simp [insert, emptyMap]

/-- C9: `insert m R D` changes nothing but the slot `(R, D.ID)`: every other
pair (resource name, device ID) maps to the same device as before or is
still absent, and the entry of every other resource name is untouched. -/
theorem insert_changes_one_slot {V : Type} (m : DeviceMap V) (R : String) (D : Device V)
    (R' id : String) (h : R' ≠ R ∨ id ≠ D.ID) :
    lookupDev (insert m R D) R' id = lookupDev m R' id ∧
    (R' ≠ R → insert m R D R' = m R') := by
  constructor
  · by_cases hR : R' = R
    · subst hR
      have hid : id ≠ D.ID := by
        rcases h with h | h
        · exact absurd rfl h
        · exact h
      cases hm : m R' <;> simp [lookupDev, insert, hid, hm]
    · simp [lookupDev, insert, hR]
  · intro hR
    simp [insert, hR]

theorem insert_changes_one_slot_witness :
    ("0" : String) ≠ device1.ID ∧
    lookupDev (insert resourceWithDevice0 "resource" device1) "resource" "0" = some device0 ∧
    lookupDev (insert resourceWithDevice0 "resource" device1) "resource" "1" = some device1 :=
  ⟨by decide,
    ((insert_changes_one_slot resourceWithDevice0 "resource" device1 "resource" "0"
      (Or.inr (by decide))).1).trans rfl,
    rfl⟩

end Rm

namespace Scheduler

/-! ## FitQuota on an entry with one dimension -/

/-- C10 (the code departs from it): after a completed `addQuota` that names
only the memory dimension, the namespace's entry has no cores dimension, and
`FitQuota` with a request that passes the memory check dereferences the
missing `*Quota` at line 55: the call panics instead of returning a
boolean. -/
theorem FitQuota_panics_on_entry_with_one_dimension :
    ∃ q, Reachable sampleNvidia q ∧ addQuota sampleNvidia init memOnlyQuota = some q ∧
      lookupQ q "team-a" "nvidia.com/gpumem" = some { Used := 0, Limit := 10 } ∧
      lookupQ q "team-a" "nvidia.com/gpucores" = none ∧
      FitQuota sampleNvidia q "team-a" 1 1 = none :=
  ⟨setNs init "team-a" (setDim emptyDeviceQuota "nvidia.com/gpumem" { Used := 0, Limit := 10 }),
    Reachable.afterAddQuota memOnlyQuota Reachable.start rfl, rfl, by decide, by decide,
    by decide⟩

end Scheduler

namespace Scheduler

/-! ## Loops that may panic -/

theorem rangeM_append {σ α : Type} (f : σ → α → Option σ) (s : σ) (l1 l2 : List α) :
    rangeM f s (l1 ++ l2) =
      match rangeM f s l1 with
      | none => none
      | some s' => rangeM f s' l2 := by
  induction l1 generalizing s with
  | nil => rfl
  | cons a t ih =>
    simp only [List.cons_append, rangeM]
    cases f s a with
    | none => rfl
    | some s1 => exact ih s1

/-- An entry on which the body of the loop does nothing can be removed from
the list without changing the outcome of the loop. -/
theorem rangeM_skip {σ α : Type} (f : σ → α → Option σ) (e : α) (h : ∀ s, f s e = some s)
    (s : σ) (l1 l2 : List α) : rangeM f s (l1 ++ e :: l2) = rangeM f s (l1 ++ l2) := by
  rw [rangeM_append, rangeM_append]
  cases rangeM f s l1 with
  | none => rfl
  | some s1 => simp [rangeM, h s1]

theorem rangeM_of_all_skip {σ α : Type} (f : σ → α → Option σ) (l : List α)
    (h : ∀ e ∈ l, ∀ s, f s e = some s) (s : σ) : rangeM f s l = some s := by
  induction l with
  | nil => rfl
  | cons a t ih =>
    simp only [rangeM, h a (List.mem_cons_self a t) s]
    exact ih (fun e he => h e (List.mem_cons_of_mem a he))

/-- A relation that is reflexive, transitive and established by every
completed step of a loop holds between the states before and after every
completed run of the loop. -/
theorem rangeM_rel {σ α : Type} (f : σ → α → Option σ) (R : σ → σ → Prop)
    (hrefl : ∀ s, R s s) (htrans : ∀ a b c, R a b → R b c → R a c)
    (hstep : ∀ s a s', f s a = some s' → R s s') (l : List α) (s s' : σ)
    (h : rangeM f s l = some s') : R s s' := by
  induction l generalizing s with
  | nil =>
    simp only [rangeM, Option.some.injEq] at h
    rw [← h]
    exact hrefl s
  | cons a t ih =>
    simp only [rangeM] at h
    cases hf : f s a with
    | none => simp [hf] at h
    | some s1 =>
      simp only [hf] at h
      exact htrans s s1 s' (hstep s a s1 hf) (ih s1 h)

/-! ## rmUsage and delQuota on a missing entry -/

/-- With a relevant device and no entry for the pod's namespace, `rmUsage`
panics: line 111 dereferences the nil `dp`. -/
theorem rmUsage_none_of_no_entry (nvidia : Nvidia) (q : Ledger) (pod : Pod)
    (podDev : PodDevices) (hdev : relevantDevices podDev ≠ [])
    (hns : q pod.Namespace = none) : rmUsage nvidia q pod podDev = none := by
  have hu : countPodDevices nvidia podDev ≠ [] :=
    fun h => hdev ((countPodDevices_eq_nil_iff nvidia podDev).mp h)
  have hl : ¬ (countPodDevices nvidia podDev).length = 0 := by
    simpa [List.length_eq_zero] using hu
  simp [rmUsage, hl, hns]

/-- With an entry that lacks a dimension of the usage map, `rmUsage` panics:
line 111 dereferences the nil `*Quota`. -/
theorem rmUsage_none_of_missing_dimension (nvidia : Nvidia) (q : Ledger) (pod : Pod)
    (podDev : PodDevices) (dq : DeviceQuota) (hns : q pod.Namespace = some dq)
    (hmiss : ∃ k ∈ (countPodDevices nvidia podDev).map Prod.fst, dq k = none) :
    rmUsage nvidia q pod podDev = none := by
  have hl : ¬ (countPodDevices nvidia podDev).length = 0 := by
    obtain ⟨k, hk, _⟩ := hmiss
    intro h0
    rw [List.length_eq_zero] at h0
    rw [h0] at hk
    simp at hk
  simp [rmUsage, hl, hns, rangeM_rmUsageEntry_missing _ dq hmiss]

/-- C11 (the code departs from it): with a relevant device, `rmUsage` on the
initial ledger, which has no entry for the pod's namespace, panics, and so
does `rmUsage` on the ledger that a completed `addQuota` naming only the
memory dimension produces, whose entry lacks the cores dimension; neither
call yields a defined outcome. -/
theorem rmUsage_panics_on_untouched_state :
    relevantDevices samplePodDevices ≠ [] ∧
    init samplePod.Namespace = none ∧
    rmUsage sampleNvidia init samplePod samplePodDevices = none ∧
    Reachable sampleNvidia memOnlyLedger ∧
    lookupQ memOnlyLedger "team-a" "nvidia.com/gpucores" = none ∧
    rmUsage sampleNvidia memOnlyLedger samplePod samplePodDevices = none :=
  ⟨by decide, rfl, rfl, Reachable.afterAddQuota memOnlyQuota Reachable.start rfl, by decide, rfl⟩

/-- C12 (the code departs from it): `delQuota` with an object naming the
memory dimension panics on the initial ledger, which has no entry for the
namespace, and `delQuota` with an object naming the cores dimension panics
on a reachable ledger whose entry holds the memory dimension only; line 163
dereferences the missing entry. -/
theorem delQuota_panics_on_untouched_state :
    init memOnlyQuota.Namespace = none ∧
    delQuota sampleNvidia init memOnlyQuota = none ∧
    Reachable sampleNvidia memOnlyLedger ∧
    lookupQ memOnlyLedger "team-a" "nvidia.com/gpucores" = none ∧
    delQuota sampleNvidia memOnlyLedger coresOnlyQuota = none :=
  ⟨rfl, rfl, Reachable.afterAddQuota memOnlyQuota Reachable.start rfl, by decide, rfl⟩

end Scheduler

namespace Scheduler

/-! ## Entries that the loops of addQuota and delQuota pass over -/

theorem actsOn_eq_some_iff (nvidia : Nvidia) (e : String × Quantity) (d : String) :
    actsOn nvidia e = some d ↔ names nvidia e d := by
  unfold actsOn names
  cases hv : e.2.AsInt64 with
  | none => simp
  | some v =>
    cases hd : dimensionName e.1 with
    | none => simp
    | some dn =>
      by_cases hr : recognized nvidia dn = true
      · by_cases hdd : dn = d
        · subst hdd
          simp [hr]
        · simp [hr, hdd]
      · by_cases hdd : dn = d
        · subst hdd
          simp [hr]
        · simp [hr, hdd]

/-- An entry whose value converts, whose key has at least 9 bytes and whose
dimension name matches neither marker is passed over by both loops. -/
theorem entry_filtered (nvidia : Nvidia) (ns : String) (e : String × Quantity)
    (hact : actsOn nvidia e = none)
    (hlen : e.2.AsInt64 ≠ none → dimensionName e.1 ≠ none) (q : Ledger) :
    addQuotaEntry nvidia ns q e = some q ∧ delQuotaEntry nvidia ns q e = some q := by
  cases hv : e.2.AsInt64 with
  | none => exact ⟨addQuotaEntry_not_ok nvidia ns q e hv, delQuotaEntry_not_ok nvidia ns q e hv⟩
  | some v =>
    obtain ⟨dn, hdn⟩ := Option.ne_none_iff_exists'.mp (hlen (by simp [hv]))
    have hr : recognized nvidia dn = false := by
      cases hrec : recognized nvidia dn with
      | false => rfl
      | true => simp [actsOn, hv, hdn, hrec] at hact
    exact ⟨addQuotaEntry_unrecognized nvidia ns q e v dn hv hdn hr,
      delQuotaEntry_unrecognized nvidia ns q e v dn hv hdn hr⟩

/-- Removing an entry that the loops pass over changes the outcome of neither
`addQuota` nor `delQuota`. -/
theorem filtered_entry_can_be_removed (nvidia : Nvidia) (q : Ledger) (ns : String)
    (l1 l2 : List (String × Quantity)) (e : String × Quantity)
    (hact : actsOn nvidia e = none)
    (hlen : e.2.AsInt64 ≠ none → dimensionName e.1 ≠ none) :
    addQuota nvidia q { Namespace := ns, Hard := l1 ++ e :: l2 } =
      addQuota nvidia q { Namespace := ns, Hard := l1 ++ l2 } ∧
    delQuota nvidia q { Namespace := ns, Hard := l1 ++ e :: l2 } =
      delQuota nvidia q { Namespace := ns, Hard := l1 ++ l2 } :=
  ⟨rangeM_skip (addQuotaEntry nvidia ns) e (fun s => (entry_filtered nvidia ns e hact hlen s).1)
      q l1 l2,
    rangeM_skip (delQuotaEntry nvidia ns) e (fun s => (entry_filtered nvidia ns e hact hlen s).2)
      q l1 l2⟩

/-- A converting entry whose key has fewer than 9 bytes makes the body of
either loop panic: the slice expression of lines 126 and 158 is out of
range. -/
theorem short_key_panics (nvidia : Nvidia) (ns : String) (q : Ledger) (e : String × Quantity)
    (hv : e.2.AsInt64 ≠ none) (hlen : e.1.length < 9) :
    addQuotaEntry nvidia ns q e = none ∧ delQuotaEntry nvidia ns q e = none := by
  obtain ⟨v, hv'⟩ := Option.ne_none_iff_exists'.mp hv
  have hd : dimensionName e.1 = none := by
    simp [dimensionName, sliceFrom, length_requests, hlen]
  simp [addQuotaEntry, delQuotaEntry, hv', hd]

/-- C13 (the code departs from it): a quota object whose only entry is the
key "pods" with an integer value, which matches neither marker, makes both
`addQuota` and `delQuota` panic at the slice expression, whereas with the
entry removed both calls complete and leave the ledger as it is. -/
theorem addQuota_delQuota_panic_on_short_key :
    stringsContains "pods" sampleNvidia.ResourceMem = false ∧
    stringsContains "pods" sampleNvidia.ResourceCores = false ∧
    addQuota sampleNvidia sampleLedger podsQuota = none ∧
    delQuota sampleNvidia sampleLedger podsQuota = none ∧
    addQuota sampleNvidia sampleLedger { Namespace := "team-a", Hard := [] } = some sampleLedger ∧
    delQuota sampleNvidia sampleLedger { Namespace := "team-a", Hard := [] } = some sampleLedger :=
  ⟨by decide, by decide, rfl, rfl, rfl, rfl⟩

/-- C19: an entry whose value does not convert is skipped whatever its key:
`addQuota` and `delQuota` with an object in which every value fails to
convert complete and return the ledger unchanged, and a failing entry
anywhere in an object leaves the outcome equal to that of the object without
the entry. -/
theorem parse_failures_are_skipped (nvidia : Nvidia) (q : Ledger) (ns : String) :
    (∀ hard : List (String × Quantity), (∀ e ∈ hard, e.2.AsInt64 = none) →
      addQuota nvidia q { Namespace := ns, Hard := hard } = some q ∧
      delQuota nvidia q { Namespace := ns, Hard := hard } = some q) ∧
    (∀ (l1 l2 : List (String × Quantity)) (e : String × Quantity), e.2.AsInt64 = none →
      addQuota nvidia q { Namespace := ns, Hard := l1 ++ e :: l2 } =
        addQuota nvidia q { Namespace := ns, Hard := l1 ++ l2 } ∧
      delQuota nvidia q { Namespace := ns, Hard := l1 ++ e :: l2 } =
        delQuota nvidia q { Namespace := ns, Hard := l1 ++ l2 }) := by
  constructor
  · intro hard hall
    exact ⟨rangeM_of_all_skip (addQuotaEntry nvidia ns) hard
        (fun e he s => addQuotaEntry_not_ok nvidia ns s e (hall e he)) q,
      rangeM_of_all_skip (delQuotaEntry nvidia ns) hard
        (fun e he s => delQuotaEntry_not_ok nvidia ns s e (hall e he)) q⟩
  · intro l1 l2 e he
    exact ⟨rangeM_skip (addQuotaEntry nvidia ns) e
        (fun s => addQuotaEntry_not_ok nvidia ns s e he) q l1 l2,
      rangeM_skip (delQuotaEntry nvidia ns) e
        (fun s => delQuotaEntry_not_ok nvidia ns s e he) q l1 l2⟩

theorem parse_failures_are_skipped_witness :
    addQuota sampleNvidia sampleLedger
        { Namespace := "team-a", Hard := [("pods", { AsInt64 := none })] } = some sampleLedger ∧
    delQuota sampleNvidia init
        { Namespace := "team-a", Hard := [("pods", { AsInt64 := none })] } = some init ∧
    addQuota sampleNvidia sampleLedger sampleQuota =
      addQuota sampleNvidia sampleLedger
        { Namespace := "team-a",
          Hard := [("requests.nvidia.com/gpumem", { AsInt64 := some 64 }),
                   ("requests.cpu", { AsInt64 := some 4 })] } :=
  ⟨((parse_failures_are_skipped sampleNvidia sampleLedger "team-a").1
      [("pods", { AsInt64 := none })] (by decide)).1,
    ((parse_failures_are_skipped sampleNvidia init "team-a").1
      [("pods", { AsInt64 := none })] (by decide)).2,
    ((parse_failures_are_skipped sampleNvidia sampleLedger "team-a").2
      [("requests.nvidia.com/gpumem", { AsInt64 := some 64 }),
       ("requests.cpu", { AsInt64 := some 4 })] []
      ("requests.nvidia.com/gpucores", { AsInt64 := none }) rfl).1⟩

end Scheduler

namespace Scheduler

/-! ## What a store keeps -/

theorem lookupQ_store (q : Ledger) (ns d : String) (w : Quota) (ns' d' : String) :
    lookupQ (setNs q ns (setDim (entryOf q ns) d w)) ns' d' =
      if ns' = ns ∧ d' = d then some w else lookupQ q ns' d' := by
  by_cases hn : ns' = ns
  · subst hn
    by_cases hd : d' = d
    · simp [lookupQ, setNs, setDim, hd]
    · simp [lookupQ_setNs_same, setDim, hd, entryOf_apply]
  · simp [lookupQ_setNs_other, hn]

theorem setNs_ne_none (q : Ledger) (ns : String) (dq : DeviceQuota) (ns' : String)
    (h : q ns' ≠ none) : setNs q ns dq ns' ≠ none := by
  unfold setNs
  by_cases hn : ns' = ns
  · simp [hn]
  · simpa [hn] using h

theorem keepsEntries_refl (q : Ledger) : keepsEntries q q := ⟨fun _ h => h, fun _ _ h => h⟩

theorem keepsEntries_trans (a b c : Ledger) (h1 : keepsEntries a b) (h2 : keepsEntries b c) :
    keepsEntries a c :=
  ⟨fun ns h => h2.1 ns (h1.1 ns h), fun ns d h => h2.2 ns d (h1.2 ns d h)⟩

theorem keepsUsed_refl (q : Ledger) : keepsUsed q q := fun _ _ v h => ⟨v, h, rfl⟩

theorem keepsUsed_trans (a b c : Ledger) (h1 : keepsUsed a b) (h2 : keepsUsed b c) :
    keepsUsed a c := by
  intro ns d v h
  obtain ⟨v1, hv1, e1⟩ := h1 ns d v h
  obtain ⟨v2, hv2, e2⟩ := h2 ns d v1 hv1
  exact ⟨v2, hv2, e2.trans e1⟩

theorem keepsEntries_store (q : Ledger) (ns d : String) (w : Quota) :
    keepsEntries q (setNs q ns (setDim (entryOf q ns) d w)) := by
  refine ⟨fun ns' h => setNs_ne_none q ns _ ns' h, fun ns' d' h => ?_⟩
  rw [lookupQ_store]
  by_cases hc : ns' = ns ∧ d' = d
  · simp [hc]
  · simpa [hc] using h

theorem keepsUsed_store (q : Ledger) (ns d : String) (w : Quota)
    (hw : w.Used = usedOf q ns d) :
    keepsUsed q (setNs q ns (setDim (entryOf q ns) d w)) := by
  intro ns' d' v h
  rw [lookupQ_store]
  by_cases hc : ns' = ns ∧ d' = d
  · obtain ⟨hn, hd⟩ := hc
    subst hn
    subst hd
    refine ⟨w, by simp, ?_⟩
    simp [hw, usedOf, h]
  · exact ⟨v, by simpa [hc] using h, rfl⟩

/-- A completed step of the loop of `addQuota` either leaves the ledger as
it is or stores one record that carries the former `Used`. -/
theorem addQuotaEntry_cases (nvidia : Nvidia) (ns : String) (q q1 : Ledger)
    (e : String × Quantity) (h : addQuotaEntry nvidia ns q e = some q1) :
    q1 = q ∨ ∃ d v, q1 = setNs q ns (setDim (entryOf q ns) d { Used := usedOf q ns d, Limit := v }) := by
  cases hv : e.2.AsInt64 with
  | none =>
    rw [addQuotaEntry_not_ok nvidia ns q e hv] at h
    exact Or.inl (Option.some.inj h).symm
  | some v =>
    cases hd : dimensionName e.1 with
    | none => simp [addQuotaEntry, hv, hd] at h
    | some dn =>
      cases hr : recognized nvidia dn with
      | false =>
        rw [addQuotaEntry_unrecognized nvidia ns q e v dn hv hd hr] at h
        exact Or.inl (Option.some.inj h).symm
      | true =>
        rw [addQuotaEntry_named nvidia ns q e v dn hv hd hr] at h
        exact Or.inr ⟨dn, v, (Option.some.inj h).symm⟩

/-- A completed step of the loop of `delQuota` either leaves the ledger as
it is or stores one record that carries the former `Used`. -/
theorem delQuotaEntry_cases (nvidia : Nvidia) (ns : String) (q q1 : Ledger)
    (e : String × Quantity) (h : delQuotaEntry nvidia ns q e = some q1) :
    q1 = q ∨ ∃ d, q1 = setNs q ns (setDim (entryOf q ns) d { Used := usedOf q ns d, Limit := 0 }) := by
  cases hv : e.2.AsInt64 with
  | none =>
    rw [delQuotaEntry_not_ok nvidia ns q e hv] at h
    exact Or.inl (Option.some.inj h).symm
  | some v =>
    cases hd : dimensionName e.1 with
    | none => simp [delQuotaEntry, hv, hd] at h
    | some dn =>
      cases hr : recognized nvidia dn with
      | false =>
        rw [delQuotaEntry_unrecognized nvidia ns q e v dn hv hd hr] at h
        exact Or.inl (Option.some.inj h).symm
      | true =>
        cases hx : lookupQ q ns dn with
        | none =>
          exfalso
          unfold lookupQ at hx
          cases hq : q ns with
          | none => simp [delQuotaEntry, hv, hd, recognized_iff, hr, hq] at h
          | some dq =>
            simp only [hq] at hx
            simp [delQuotaEntry, hv, hd, recognized_iff, hr, hq, hx] at h
        | some x =>
          rw [delQuotaEntry_named nvidia ns q e v dn x hv hd hr hx] at h
          refine Or.inr ⟨dn, ?_⟩
          rw [← Option.some.inj h]
          simp [usedOf, hx]

theorem addQuotaEntry_keeps (nvidia : Nvidia) (ns : String) (q q1 : Ledger)
    (e : String × Quantity) (h : addQuotaEntry nvidia ns q e = some q1) :
    keepsEntries q q1 ∧ keepsUsed q q1 := by
  rcases addQuotaEntry_cases nvidia ns q q1 e h with rfl | ⟨d, v, rfl⟩
  · exact ⟨keepsEntries_refl _, keepsUsed_refl _⟩
  · exact ⟨keepsEntries_store q ns d _, keepsUsed_store q ns d _ rfl⟩

theorem delQuotaEntry_keeps (nvidia : Nvidia) (ns : String) (q q1 : Ledger)
    (e : String × Quantity) (h : delQuotaEntry nvidia ns q e = some q1) :
    keepsEntries q q1 ∧ keepsUsed q q1 := by
  rcases delQuotaEntry_cases nvidia ns q q1 e h with rfl | ⟨d, rfl⟩
  · exact ⟨keepsEntries_refl _, keepsUsed_refl _⟩
  · exact ⟨keepsEntries_store q ns d _, keepsUsed_store q ns d _ rfl⟩

theorem addQuota_keeps (nvidia : Nvidia) (q q' : Ledger) (quota : ResourceQuota)
    (h : addQuota nvidia q quota = some q') : keepsEntries q q' ∧ keepsUsed q q' :=
  rangeM_rel (addQuotaEntry nvidia quota.Namespace)
    (fun a b => keepsEntries a b ∧ keepsUsed a b)
    (fun s => ⟨keepsEntries_refl s, keepsUsed_refl s⟩)
    (fun a b c h1 h2 => ⟨keepsEntries_trans a b c h1.1 h2.1, keepsUsed_trans a b c h1.2 h2.2⟩)
    (fun s e s' hs => addQuotaEntry_keeps nvidia quota.Namespace s s' e hs)
    quota.Hard q q' h

theorem delQuota_keeps (nvidia : Nvidia) (q q' : Ledger) (quota : ResourceQuota)
    (h : delQuota nvidia q quota = some q') : keepsEntries q q' ∧ keepsUsed q q' :=
  rangeM_rel (delQuotaEntry nvidia quota.Namespace)
    (fun a b => keepsEntries a b ∧ keepsUsed a b)
    (fun s => ⟨keepsEntries_refl s, keepsUsed_refl s⟩)
    (fun a b c h1 h2 => ⟨keepsEntries_trans a b c h1.1 h2.1, keepsUsed_trans a b c h1.2 h2.2⟩)
    (fun s e s' hs => delQuotaEntry_keeps nvidia quota.Namespace s s' e hs)
    quota.Hard q q' h

end Scheduler

namespace Scheduler

/-! ## The effect of addUsage and rmUsage on the lookups -/

theorem addUsage_apply (nvidia : Nvidia) (q : Ledger) (pod : Pod) (podDev : PodDevices)
    (ns : String) :
    addUsage nvidia q pod podDev ns =
      if ns = pod.Namespace then
        (if (countPodDevices nvidia podDev).length = 0 then q ns
         else some ((countPodDevices nvidia podDev).foldl addUsageEntry (entryOf q ns)))
      else q ns := by
  unfold addUsage
  by_cases hu : (countPodDevices nvidia podDev).length = 0
  · simp [hu]
  · by_cases hn : ns = pod.Namespace
    · simp [hu, hn, setNs]
    · simp [hu, hn, setNs]

theorem lookupQ_addUsage (nvidia : Nvidia) (q : Ledger) (pod : Pod) (podDev : PodDevices)
    (ns d : String) :
    lookupQ (addUsage nvidia q pod podDev) ns d =
      if ns = pod.Namespace ∧ d ∈ (countPodDevices nvidia podDev).map Prod.fst then
        some { Used := wrap64 (usedOf q ns d + usageFor (countPodDevices nvidia podDev) d),
               Limit := limitOf q ns d }
      else lookupQ q ns d := by
  unfold lookupQ
  rw [addUsage_apply]
  by_cases hn : ns = pod.Namespace
  · by_cases hu : (countPodDevices nvidia podDev).length = 0
    · have hnil : countPodDevices nvidia podDev = [] := List.length_eq_zero.mp hu
      simp [hn, hnil]
    · simp only [hn, hu, if_true, if_false, true_and]
      rw [foldl_addUsageEntry_apply, usedIn_entryOf, limitIn_entryOf, entryOf_apply]
      rfl
  · simp [hn]

theorem keepsEntries_addUsage (nvidia : Nvidia) (q : Ledger) (pod : Pod)
    (podDev : PodDevices) : keepsEntries q (addUsage nvidia q pod podDev) := by
  constructor
  · intro ns h
    rw [addUsage_apply]
    by_cases hn : ns = pod.Namespace
    · by_cases hu : (countPodDevices nvidia podDev).length = 0
      · simpa [hn, hu] using (hn ▸ h)
      · simp [hn, hu]
    · simpa [hn] using h
  · intro ns d h
    rw [lookupQ_addUsage]
    split_ifs
    · simp
    · exact h

theorem keepsLimits_addUsage (nvidia : Nvidia) (q : Ledger) (pod : Pod)
    (podDev : PodDevices) : keepsLimits q (addUsage nvidia q pod podDev) := by
  intro ns d v h
  rw [lookupQ_addUsage]
  split_ifs
  · exact ⟨_, rfl, by simp [limitOf, h]⟩
  · exact ⟨v, h, rfl⟩

/-- A completed `rmUsage` leaves every other namespace's entry as it is,
keeps the entry of the pod's namespace, and subtracts the totals of the
usage map from the dimensions it names. -/
theorem rmUsage_of_some (nvidia : Nvidia) (q q' : Ledger) (pod : Pod) (podDev : PodDevices)
    (h : rmUsage nvidia q pod podDev = some q') :
    (∀ ns, ns ≠ pod.Namespace → q' ns = q ns) ∧
    (∀ ns, q ns ≠ none → q' ns ≠ none) ∧
    ∀ ns d, lookupQ q' ns d =
      if ns = pod.Namespace ∧ d ∈ (countPodDevices nvidia podDev).map Prod.fst then
        some { Used := wrap64 (usedOf q ns d - usageFor (countPodDevices nvidia podDev) d),
               Limit := limitOf q ns d }
      else lookupQ q ns d := by
  unfold rmUsage at h
  by_cases hu : (countPodDevices nvidia podDev).length = 0
  · have hnil : countPodDevices nvidia podDev = [] := List.length_eq_zero.mp hu
    simp only [hu, if_true, Option.some.injEq] at h
    subst h
    exact ⟨fun _ _ => rfl, fun _ hq => hq, fun ns d => by simp [hnil]⟩
  · simp only [hu, if_false] at h
    cases hns : q pod.Namespace with
    | none => simp [hns] at h
    | some dp =>
      simp only [hns] at h
      have hall : ∀ k ∈ (countPodDevices nvidia podDev).map Prod.fst, dp k ≠ none := by
        intro k hk hnone
        rw [rangeM_rmUsageEntry_missing _ dp ⟨k, hk, hnone⟩] at h
        cases h
      obtain ⟨dp', hrun, hval⟩ := rangeM_rmUsageEntry (countPodDevices nvidia podDev) dp hall
      rw [hrun] at h
      simp only [Option.some.injEq] at h
      subst h
      refine ⟨fun ns hn => by simp [setNs, hn], fun ns hq => setNs_ne_none q _ _ ns hq, ?_⟩
      intro ns d
      by_cases hn : ns = pod.Namespace
      · subst hn
        rw [lookupQ_setNs_same, hval d]
        have e1 : usedIn dp d = usedOf q pod.Namespace d := by
          simp [usedIn, usedOf, lookupQ, hns]
        have e2 : limitIn dp d = limitOf q pod.Namespace d := by
          simp [limitIn, limitOf, lookupQ, hns]
        have e3 : dp d = lookupQ q pod.Namespace d := by
          simp [lookupQ, hns]
        rw [e1, e2, e3]
        by_cases hd : d ∈ (countPodDevices nvidia podDev).map Prod.fst
        · rw [if_pos hd, if_pos ⟨rfl, hd⟩]
        · rw [if_neg hd, if_neg (fun hc => hd hc.2)]
      · rw [lookupQ_setNs_other _ _ _ _ _ hn]
        simp [hn]

theorem keepsEntries_rmUsage (nvidia : Nvidia) (q q' : Ledger) (pod : Pod)
    (podDev : PodDevices) (h : rmUsage nvidia q pod podDev = some q') : keepsEntries q q' := by
  obtain ⟨_, hns, hlook⟩ := rmUsage_of_some nvidia q q' pod podDev h
  refine ⟨hns, fun ns d hq => ?_⟩
  rw [hlook]
  split_ifs
  · simp
  · exact hq

theorem keepsLimits_rmUsage (nvidia : Nvidia) (q q' : Ledger) (pod : Pod)
    (podDev : PodDevices) (h : rmUsage nvidia q pod podDev = some q') : keepsLimits q q' := by
  obtain ⟨_, _, hlook⟩ := rmUsage_of_some nvidia q q' pod podDev h
  intro ns d v hv
  rw [hlook]
  split_ifs
  · exact ⟨_, rfl, by simp [limitOf, hv]⟩
  · exact ⟨v, hv, rfl⟩

end Scheduler

namespace Scheduler

/-! ## Frame properties of the four operations -/

theorem addUsage_other (nvidia : Nvidia) (q : Ledger) (pod : Pod) (podDev : PodDevices)
    (ns : String) (h : ns ≠ pod.Namespace) : addUsage nvidia q pod podDev ns = q ns := by
  rw [addUsage_apply, if_neg h]

theorem entryOf_congr (a b : Ledger) (ns : String) (h : a ns = b ns) :
    entryOf a ns = entryOf b ns := by
  unfold entryOf
  rw [h]

/-- The entry that `addUsage` produces for the pod's namespace is not
influenced by an earlier `addUsage` for another namespace. -/
theorem addUsage_after_other (nvidia : Nvidia) (q : Ledger) (pod1 : Pod) (podDev1 : PodDevices)
    (pod2 : Pod) (podDev2 : PodDevices) (h : pod2.Namespace ≠ pod1.Namespace) :
    addUsage nvidia (addUsage nvidia q pod1 podDev1) pod2 podDev2 pod2.Namespace =
      addUsage nvidia q pod2 podDev2 pod2.Namespace := by
  rw [addUsage_apply nvidia (addUsage nvidia q pod1 podDev1) pod2 podDev2,
    addUsage_apply nvidia q pod2 podDev2, if_pos rfl, if_pos rfl,
    entryOf_congr _ q pod2.Namespace (addUsage_other nvidia q pod1 podDev1 _ h),
    addUsage_other nvidia q pod1 podDev1 _ h]

/-- C14: no operation removes an entry.  `addUsage`, and every completed
`rmUsage`, `addQuota` and `delQuota`, leave every namespace that was present
and every dimension that was present in its place (also when `Limit` and
`Used` have returned to 0).  `FitQuota` contains no store: in the embedding
it yields only its result, and the ledger after it is the ledger before. -/
theorem ledger_entries_are_never_removed (nvidia : Nvidia) (q : Ledger) :
    (∀ pod podDev, keepsEntries q (addUsage nvidia q pod podDev)) ∧
    (∀ pod podDev q', rmUsage nvidia q pod podDev = some q' → keepsEntries q q') ∧
    (∀ quota q', addQuota nvidia q quota = some q' → keepsEntries q q') ∧
    (∀ quota q', delQuota nvidia q quota = some q' → keepsEntries q q') :=
  ⟨fun pod podDev => keepsEntries_addUsage nvidia q pod podDev,
    fun pod podDev q' h => keepsEntries_rmUsage nvidia q q' pod podDev h,
    fun quota q' h => (addQuota_keeps nvidia q q' quota h).1,
    fun quota q' h => (delQuota_keeps nvidia q q' quota h).1⟩

theorem ledger_entries_are_never_removed_witness :
    ∃ q', delQuota sampleNvidia memOnlyLedger memOnlyQuota = some q' ∧
      keepsEntries memOnlyLedger q' ∧
      lookupQ q' "team-a" "nvidia.com/gpumem" = some { Used := 0, Limit := 0 } :=
  ⟨setNs memOnlyLedger "team-a"
      (setDim (entryOf memOnlyLedger "team-a") "nvidia.com/gpumem" { Used := 0, Limit := 0 }),
    rfl,
    (ledger_entries_are_never_removed sampleNvidia memOnlyLedger).2.2.2 memOnlyQuota _ rfl,
    by decide⟩

/-- C15: `Used` and `Limit` have disjoint writers.  `addUsage` and every
completed `rmUsage` leave the `Limit` of every existing pair as it is;
every completed `addQuota` and `delQuota` leave the `Used` of every existing
pair as it is.  `FitQuota` contains no store and changes neither. -/
theorem used_and_limit_have_disjoint_writers (nvidia : Nvidia) (q : Ledger) :
    (∀ pod podDev, keepsLimits q (addUsage nvidia q pod podDev)) ∧
    (∀ pod podDev q', rmUsage nvidia q pod podDev = some q' → keepsLimits q q') ∧
    (∀ quota q', addQuota nvidia q quota = some q' → keepsUsed q q') ∧
    (∀ quota q', delQuota nvidia q quota = some q' → keepsUsed q q') :=
  ⟨fun pod podDev => keepsLimits_addUsage nvidia q pod podDev,
    fun pod podDev q' h => keepsLimits_rmUsage nvidia q q' pod podDev h,
    fun quota q' h => (addQuota_keeps nvidia q q' quota h).2,
    fun quota q' h => (delQuota_keeps nvidia q q' quota h).2⟩

theorem used_and_limit_have_disjoint_writers_witness :
    (∃ v, lookupQ (addUsage sampleNvidia sampleLedger samplePod samplePodDevices)
        "team-a" "nvidia.com/gpumem" = some v ∧ v.Limit = 10) ∧
    ∃ q', addQuota sampleNvidia sampleLedger sampleQuota = some q' ∧
      ∃ v, lookupQ q' "team-a" "nvidia.com/gpumem" = some v ∧ v.Used = 5 :=
  ⟨(used_and_limit_have_disjoint_writers sampleNvidia sampleLedger).1 samplePod samplePodDevices
      "team-a" "nvidia.com/gpumem" { Used := 5, Limit := 10 } (by decide),
    ⟨setNs sampleLedger "team-a"
        (setDim (entryOf sampleLedger "team-a") "nvidia.com/gpumem" { Used := 5, Limit := 64 }),
      rfl,
      (used_and_limit_have_disjoint_writers sampleNvidia sampleLedger).2.2.1 sampleQuota _ rfl
        "team-a" "nvidia.com/gpumem" { Used := 5, Limit := 10 } (by decide)⟩⟩

/-- C16: `addUsage` for a pod of namespace A, and every completed `rmUsage`,
leave the entry of every namespace other than A exactly as it is; hence two
`addUsage` calls for pods of different namespaces give the same ledger in
either order. -/
theorem usage_updates_touch_one_namespace (nvidia : Nvidia) (q : Ledger) (pod : Pod)
    (podDev : PodDevices) :
    (∀ B, B ≠ pod.Namespace → addUsage nvidia q pod podDev B = q B) ∧
    (∀ q', rmUsage nvidia q pod podDev = some q' → ∀ B, B ≠ pod.Namespace → q' B = q B) ∧
    (∀ pod2 podDev2, pod2.Namespace ≠ pod.Namespace →
      addUsage nvidia (addUsage nvidia q pod podDev) pod2 podDev2 =
        addUsage nvidia (addUsage nvidia q pod2 podDev2) pod podDev) := by
  refine ⟨fun B hB => addUsage_other nvidia q pod podDev B hB,
    fun q' h => (rmUsage_of_some nvidia q q' pod podDev h).1, ?_⟩
  intro pod2 podDev2 hne
  have hne' : pod.Namespace ≠ pod2.Namespace := fun h => hne h.symm
  funext ns
  by_cases hA : ns = pod.Namespace
  · subst hA
    rw [addUsage_other nvidia _ pod2 podDev2 _ hne',
      addUsage_after_other nvidia q pod2 podDev2 pod podDev hne']
  · by_cases hB : ns = pod2.Namespace
    · subst hB
      rw [addUsage_after_other nvidia q pod podDev pod2 podDev2 hne,
        addUsage_other nvidia _ pod podDev _ hne]
    · rw [addUsage_other nvidia _ pod2 podDev2 ns hB, addUsage_other nvidia q pod podDev ns hA,
        addUsage_other nvidia _ pod podDev ns hA, addUsage_other nvidia q pod2 podDev2 ns hB]

theorem usage_updates_touch_one_namespace_witness :
    otherPod.Namespace ≠ samplePod.Namespace ∧
    addUsage sampleNvidia sampleLedger samplePod samplePodDevices "team-b" = sampleLedger "team-b" ∧
    addUsage sampleNvidia (addUsage sampleNvidia sampleLedger samplePod samplePodDevices)
        otherPod samplePodDevices =
      addUsage sampleNvidia (addUsage sampleNvidia sampleLedger otherPod samplePodDevices)
        samplePod samplePodDevices :=
  ⟨by decide,
    (usage_updates_touch_one_namespace sampleNvidia sampleLedger samplePod samplePodDevices).1
      "team-b" (by decide),
    (usage_updates_touch_one_namespace sampleNvidia sampleLedger samplePod samplePodDevices).2.2
      otherPod samplePodDevices (by decide)⟩

end Scheduler

namespace Scheduler

/-! ## The limit that addQuota leaves for a dimension -/

theorem dimensionName_of_length (idx : String) (h : 9 ≤ idx.length) :
    dimensionName idx ≠ none := by
  simp [dimensionName, sliceFrom, length_requests, h]

/-- With pairwise distinct keys of the form "requests.<d>", the entry for
"requests.<d>" is the only one naming `d`, so its value is the last limit. -/
theorem lastLimit_of_mem (nvidia : Nvidia) (hard : List (String × Quantity))
    (hkeys : (hard.map Prod.fst).Nodup) (hpre : ∀ e ∈ hard, hasRequestsPrefix e.1)
    (d : String) (qty : Quantity) (val : Int) (hmem : ("requests." ++ d, qty) ∈ hard)
    (hval : qty.AsInt64 = some val) (hr : recognized nvidia d = true) :
    lastLimit nvidia hard d = some val := by
  have hnamed : ∃ e ∈ hard, names nvidia e d :=
    ⟨_, hmem, by simp [hval], dimensionName_append d, hr⟩
  cases hl : lastLimit nvidia hard d with
  | none => exact absurd hnamed ((lastLimit_none_iff nvidia hard d).mp hl)
  | some w =>
    obtain ⟨e', he', hv', hd', _⟩ := lastLimit_some_mem nvidia hard d w hl
    have hkey : e'.1 = "requests." ++ d :=
      key_eq_of_dimensionName _ _ d (hpre e' he') (hasRequestsPrefix_append d) hd'
        (dimensionName_append d)
    have hsame : e' = ("requests." ++ d, qty) :=
      eq_of_mem_of_key_eq hard hkeys _ _ he' hmem hkey
    rw [hsame] at hv'
    rw [hval] at hv'
    rw [Option.some.inj hv']

/-- When no entry names a dimension, the loop of `addQuota` returns the
ledger as it is. -/
theorem addQuota_loop_of_no_names (nvidia : Nvidia) (ns : String)
    (hard : List (String × Quantity)) (q : Ledger)
    (hlen : ∀ e ∈ hard, e.2.AsInt64 ≠ none → dimensionName e.1 ≠ none)
    (hno : ∀ d, lastLimit nvidia hard d = none) :
    rangeM (addQuotaEntry nvidia ns) q hard = some q := by
  apply rangeM_of_all_skip
  intro e he s
  have hact : actsOn nvidia e = none := by
    cases ha : actsOn nvidia e with
    | none => rfl
    | some d =>
      exact absurd ⟨e, he, (actsOn_eq_some_iff nvidia e d).mp ha⟩
        ((lastLimit_none_iff nvidia hard d).mp (hno d))
  exact (entry_filtered nvidia ns e hact (hlen e he) s).1

/-- The result of a completed loop of `addQuota`, as a whole: either no
entry names a dimension and the ledger is returned as it is, or the entry of
the namespace is the map that gives every named dimension its last limit and
its former `Used`, and every other dimension its former record. -/
theorem addQuota_loop_result (nvidia : Nvidia) (ns : String) (hard : List (String × Quantity))
    (q r : Ledger)
    (hlen : ∀ e ∈ hard, e.2.AsInt64 ≠ none → dimensionName e.1 ≠ none)
    (hrun : rangeM (addQuotaEntry nvidia ns) q hard = some r) :
    (∀ ns', ns' ≠ ns → r ns' = q ns') ∧
    (((∀ d, lastLimit nvidia hard d = none) ∧ r = q) ∨
      r ns = some (fun d =>
        match lastLimit nvidia hard d with
        | some v => some { Used := usedOf q ns d, Limit := v }
        | none => lookupQ q ns d)) := by
  obtain ⟨r', hrun', hother, _, hlook⟩ := addQuota_loop nvidia ns hard q hlen
  rw [hrun] at hrun'
  have hrr : r = r' := Option.some.inj hrun'
  subst hrr
  refine ⟨hother, ?_⟩
  by_cases hno : ∀ d, lastLimit nvidia hard d = none
  · left
    refine ⟨hno, ?_⟩
    have := addQuota_loop_of_no_names nvidia ns hard q hlen hno
    rw [hrun] at this
    exact Option.some.inj this
  · right
    obtain ⟨d0, hd0⟩ := not_forall.mp hno
    obtain ⟨v0, hv0⟩ := Option.ne_none_iff_exists'.mp hd0
    have h0 := hlook d0
    rw [hv0] at h0
    cases hr : r ns with
    | none => simp [lookupQ, hr] at h0
    | some dq =>
      congr 1
      funext d
      have := hlook d
      simpa [lookupQ, hr] using this

end Scheduler

namespace Scheduler

/-! ## FitQuota and the 64-bit sum -/

/-- C17 (as stated it fails): with `Used = 5`, `Limit = 10` and the request
`2^63 - 1`, all `int64` values, the exact sum is greater than the limit, but
the 64-bit sum wraps to a negative number and `FitQuota` returns true. -/
theorem FitQuota_admits_when_sum_overflows :
    lookupQ sampleLedger "team-a" "nvidia.com/gpumem" = some { Used := 5, Limit := 10 } ∧
    lookupQ sampleLedger "team-a" "nvidia.com/gpucores" = some { Used := 20, Limit := 100 } ∧
    isInt64 (2 ^ 63 - 1) ∧
    (10 : Int) < 5 + (2 ^ 63 - 1) ∧
    FitQuota sampleNvidia sampleLedger "team-a" (2 ^ 63 - 1) 0 = some true :=
  ⟨by decide, by decide, by unfold isInt64; decide, by decide, by decide⟩

/-- C17 (amended): with both dimensions present, `FitQuota` returns false
whenever, for the memory or the cores dimension, the limit is non-zero and
the sum `Used + request` taken in 64-bit two's-complement arithmetic is
greater than the limit; this is the case in particular when the exact sum
lies in the `int64` range and is greater than the limit. -/
theorem FitQuota_denies_when_int64_sum_exceeds (nvidia : Nvidia) (q : Ledger) (ns : String)
    (dq : DeviceQuota) (m c : Quota) (memreq coresreq : Int)
    (hns : q ns = some dq)
    (hm : dq nvidia.ResourceMem = some m) (hc : dq nvidia.ResourceCores = some c) :
    ((m.Limit ≠ 0 ∧ m.Limit < wrap64 (m.Used + memreq)) ∨
        (c.Limit ≠ 0 ∧ c.Limit < wrap64 (c.Used + coresreq)) →
      FitQuota nvidia q ns memreq coresreq = some false) ∧
    ((m.Limit ≠ 0 ∧ isInt64 (m.Used + memreq) ∧ m.Limit < m.Used + memreq) ∨
        (c.Limit ≠ 0 ∧ isInt64 (c.Used + coresreq) ∧ c.Limit < c.Used + coresreq) →
      FitQuota nvidia q ns memreq coresreq = some false) := by
  have main : (m.Limit ≠ 0 ∧ m.Limit < wrap64 (m.Used + memreq)) ∨
      (c.Limit ≠ 0 ∧ c.Limit < wrap64 (c.Used + coresreq)) →
      FitQuota nvidia q ns memreq coresreq = some false := by
    intro h
    simp only [FitQuota, hns, hm, hc]
    by_cases hom : overLimit m memreq = true
    · simp [hom]
    · rcases h with ⟨h1, h2⟩ | ⟨h1, h2⟩
      · exact absurd (by simp [overLimit, h1, h2]) hom
      · have hoc : overLimit c coresreq = true := by simp [overLimit, h1, h2]
        simp [hom, hoc]
  refine ⟨main, ?_⟩
  rintro (⟨h1, h2, h3⟩ | ⟨h1, h2, h3⟩)
  · exact main (Or.inl ⟨h1, by rw [wrap64_of_isInt64 h2]; exact h3⟩)
  · exact main (Or.inr ⟨h1, by rw [wrap64_of_isInt64 h2]; exact h3⟩)

theorem FitQuota_denies_when_int64_sum_exceeds_witness :
    FitQuota sampleNvidia sampleLedger "team-a" 5 81 = some false :=
  (FitQuota_denies_when_int64_sum_exceeds sampleNvidia sampleLedger "team-a" sampleDeviceQuota
    { Used := 5, Limit := 10 } { Used := 20, Limit := 100 } 5 81 rfl (by decide) (by decide)).1
    (Or.inr ⟨by decide, by decide⟩)

/-! ## addQuota overwrites -/

/-- C18: for quota objects whose keys all have the form "requests.<d>",
`addQuota` applied a second time with the same object returns exactly the
ledger of the first application; and after `addQuota` with one object,
`addQuota` with a second object (pairwise distinct keys) leaves every
dimension the second object names with the second object's value as its
`Limit`, whatever the first object set. -/
theorem addQuota_overwrites (nvidia : Nvidia) (q : Ledger) (quota1 quota2 : ResourceQuota)
    (hpre1 : ∀ e ∈ quota1.Hard, hasRequestsPrefix e.1)
    (hpre2 : ∀ e ∈ quota2.Hard, hasRequestsPrefix e.1)
    (hkeys2 : (quota2.Hard.map Prod.fst).Nodup) :
    ∃ qa, addQuota nvidia q quota1 = some qa ∧ addQuota nvidia qa quota1 = some qa ∧
      ∃ qb, addQuota nvidia qa quota2 = some qb ∧
        ∀ d qty val, ("requests." ++ d, qty) ∈ quota2.Hard → qty.AsInt64 = some val →
          (stringsContains d nvidia.ResourceMem = true ∨
            stringsContains d nvidia.ResourceCores = true) →
          limitOf qb quota2.Namespace d = val := by
  have hlen1 : ∀ e ∈ quota1.Hard, e.2.AsInt64 ≠ none → dimensionName e.1 ≠ none := by
    intro e he _
    rw [dimensionName_of_requests_key e.1 (hpre1 e he)]
    simp
  have hlen2 : ∀ e ∈ quota2.Hard, e.2.AsInt64 ≠ none → dimensionName e.1 ≠ none := by
    intro e he _
    rw [dimensionName_of_requests_key e.1 (hpre2 e he)]
    simp
  obtain ⟨qa, hrunA, _, husedA, hlookA⟩ :=
    addQuota_loop nvidia quota1.Namespace quota1.Hard q hlen1
  obtain ⟨qa2, hrun2, hother2, _, _⟩ :=
    addQuota_loop nvidia quota1.Namespace quota1.Hard qa hlen1
  obtain ⟨qb, hrunB, _, _, hlookB⟩ :=
    addQuota_loop nvidia quota2.Namespace quota2.Hard qa hlen2
  have hidem : qa2 = qa := by
    by_cases hno : ∀ d, lastLimit nvidia quota1.Hard d = none
    · have := addQuota_loop_of_no_names nvidia quota1.Namespace quota1.Hard qa hlen1 hno
      rw [hrun2] at this
      exact Option.some.inj this
    · have hA := (addQuota_loop_result nvidia quota1.Namespace quota1.Hard q qa hlen1 hrunA).2
      have h2 := (addQuota_loop_result nvidia quota1.Namespace quota1.Hard qa qa2 hlen1 hrun2).2
      rcases hA with ⟨hno', _⟩ | hA
      · exact absurd hno' hno
      · rcases h2 with ⟨hno', _⟩ | h2
        · exact absurd hno' hno
        · funext ns'
          by_cases hn : ns' = quota1.Namespace
          · subst hn
            rw [h2, hA]
            congr 1
            funext d
            cases hl : lastLimit nvidia quota1.Hard d with
            | none =>
              have := hlookA d
              rw [hl] at this
              exact this
            | some v =>
              simp only [husedA d]
          · exact hother2 ns' hn
  refine ⟨qa, hrunA, ?_, qb, hrunB, ?_⟩
  · rw [hidem] at hrun2
    exact hrun2
  · intro d qty val hmem hval hrec
    have hr : recognized nvidia d = true := by
      simpa [recognized] using hrec
    have hl := lastLimit_of_mem nvidia quota2.Hard hkeys2 hpre2 d qty val hmem hval hr
    have := hlookB d
    rw [hl] at this
    simp [limitOf, this]

end Scheduler

namespace Scheduler

theorem addQuota_overwrites_witness :
    (∀ e ∈ memOnlyQuota.Hard, hasRequestsPrefix e.1) ∧
    (∀ e ∈ sampleQuota.Hard, hasRequestsPrefix e.1) ∧
    (sampleQuota.Hard.map Prod.fst).Nodup ∧
    ∃ qa, addQuota sampleNvidia sampleLedger memOnlyQuota = some qa ∧
      addQuota sampleNvidia qa memOnlyQuota = some qa ∧
      ∃ qb, addQuota sampleNvidia qa sampleQuota = some qb ∧
        limitOf qb "team-a" "nvidia.com/gpumem" = 64 :=
  ⟨by decide, by decide, by decide,
    match addQuota_overwrites sampleNvidia sampleLedger memOnlyQuota sampleQuota
      (by decide) (by decide) (by decide) with
    | ⟨qa, h1, h2, qb, h3, h4⟩ =>
      ⟨qa, h1, h2, qb, h3,
        h4 "nvidia.com/gpumem" { AsInt64 := some 64 } 64 (by decide) rfl (Or.inl (by decide))⟩⟩

/-! ## The visiting order of the hard-limit map -/

/-- C20 (as stated it fails): two distinct 26-byte keys that agree after
their first 9 bytes name the same dimension; visiting them in one order
leaves that dimension with `Limit = 7`, in the other order with
`Limit = 5`. -/
theorem addQuota_depends_on_order_for_colliding_keys :
    (collidingHard.map Prod.fst).Nodup ∧
    (∀ e ∈ collidingHard, 9 ≤ e.1.length) ∧
    collidingHard.reverse.Perm collidingHard ∧
    (addQuota sampleNvidia init { Namespace := "team-a", Hard := collidingHard }).map
        (fun q => limitOf q "team-a" "nvidia.com/gpumem") = some 7 ∧
    (addQuota sampleNvidia init { Namespace := "team-a", Hard := collidingHard.reverse }).map
        (fun q => limitOf q "team-a" "nvidia.com/gpumem") = some 5 :=
  ⟨by decide, by decide, List.reverse_perm collidingHard, by decide, by decide⟩

theorem eq_of_filterMap_nodup {α β : Type} (f : α → Option β) (l : List α)
    (h : (l.filterMap f).Nodup) (a b : α) (ha : a ∈ l) (hb : b ∈ l) (d : β)
    (hfa : f a = some d) (hfb : f b = some d) : a = b := by
  induction l with
  | nil => simp at ha
  | cons x t ih =>
    have hmem : ∀ y ∈ t, f y = some d → d ∈ t.filterMap f :=
      fun y hy hfy => List.mem_filterMap.mpr ⟨y, hy, hfy⟩
    rcases List.mem_cons.mp ha with rfl | ha'
    · rcases List.mem_cons.mp hb with rfl | hb'
      · rfl
      · rw [List.filterMap_cons_some hfa] at h
        exact absurd (hmem b hb' hfb) (List.nodup_cons.mp h).1
    · rcases List.mem_cons.mp hb with rfl | hb'
      · rw [List.filterMap_cons_some hfb] at h
        exact absurd (hmem a ha' hfa) (List.nodup_cons.mp h).1
      · have ht : (t.filterMap f).Nodup := by
          cases hx : f x with
          | none =>
            rw [List.filterMap_cons_none hx] at h
            exact h
          | some y =>
            rw [List.filterMap_cons_some hx] at h
            exact (List.nodup_cons.mp h).2
        exact ih ht ha' hb'

/-- When no two entries act on the same dimension, the last limit of a
dimension is the value of the one entry that acts on it. -/
theorem lastLimit_eq_some_iff (nvidia : Nvidia) (hard : List (String × Quantity))
    (hfree : (hard.filterMap (actsOn nvidia)).Nodup) (d : String) (v : Int) :
    lastLimit nvidia hard d = some v ↔
      ∃ e ∈ hard, actsOn nvidia e = some d ∧ e.2.AsInt64 = some v := by
  constructor
  · intro h
    obtain ⟨e, he, hv, hd, hr⟩ := lastLimit_some_mem nvidia hard d v h
    exact ⟨e, he, (actsOn_eq_some_iff nvidia e d).mpr ⟨by simp [hv], hd, hr⟩, hv⟩
  · rintro ⟨e, he, hact, hv⟩
    cases hl : lastLimit nvidia hard d with
    | none =>
      exact absurd ⟨e, he, (actsOn_eq_some_iff nvidia e d).mp hact⟩
        ((lastLimit_none_iff nvidia hard d).mp hl)
    | some w =>
      obtain ⟨e', he', hv', hd', hr'⟩ := lastLimit_some_mem nvidia hard d w hl
      have hact' : actsOn nvidia e' = some d :=
        (actsOn_eq_some_iff nvidia e' d).mpr ⟨by simp [hv'], hd', hr'⟩
      have hsame : e' = e := eq_of_filterMap_nodup (actsOn nvidia) hard hfree e' e he' he d hact' hact
      rw [hsame, hv] at hv'
      rw [Option.some.inj hv']

theorem lastLimit_perm (nvidia : Nvidia) (hard hard' : List (String × Quantity))
    (hperm : hard.Perm hard') (hfree : (hard.filterMap (actsOn nvidia)).Nodup) (d : String) :
    lastLimit nvidia hard d = lastLimit nvidia hard' d := by
  have hfree' : (hard'.filterMap (actsOn nvidia)).Nodup :=
    (hperm.filterMap (actsOn nvidia)).nodup_iff.mp hfree
  have key : ∀ v, lastLimit nvidia hard d = some v ↔ lastLimit nvidia hard' d = some v := by
    intro v
    rw [lastLimit_eq_some_iff nvidia hard hfree, lastLimit_eq_some_iff nvidia hard' hfree']
    constructor
    · rintro ⟨e, he, h⟩
      exact ⟨e, hperm.mem_iff.mp he, h⟩
    · rintro ⟨e, he, h⟩
      exact ⟨e, hperm.mem_iff.mpr he, h⟩
  cases h : lastLimit nvidia hard d with
  | none =>
    cases h' : lastLimit nvidia hard' d with
    | none => rfl
    | some w =>
      rw [(key w).mpr h'] at h
      cases h
  | some v => exact ((key v).mp h).symm

/-- C20 (amended): for a hard-limit map with keys of at least 9 bytes in
which no two entries act on the same dimension (no two converting entries
yield the same recognized dimension name after their first 9 bytes are cut
off), `addQuota` completes and returns the same ledger for every order in
which the entries are visited. -/
theorem addQuota_order_irrelevant_without_collisions (nvidia : Nvidia) (q : Ledger)
    (ns : String) (hard hard' : List (String × Quantity)) (hperm : hard.Perm hard')
    (hlen : ∀ e ∈ hard, 9 ≤ e.1.length)
    (hfree : (hard.filterMap (actsOn nvidia)).Nodup) :
    (∃ r, addQuota nvidia q { Namespace := ns, Hard := hard } = some r) ∧
    addQuota nvidia q { Namespace := ns, Hard := hard } =
      addQuota nvidia q { Namespace := ns, Hard := hard' } := by
  have hl1 : ∀ e ∈ hard, e.2.AsInt64 ≠ none → dimensionName e.1 ≠ none :=
    fun e he _ => dimensionName_of_length e.1 (hlen e he)
  have hl2 : ∀ e ∈ hard', e.2.AsInt64 ≠ none → dimensionName e.1 ≠ none :=
    fun e he _ => dimensionName_of_length e.1 (hlen e (hperm.mem_iff.mpr he))
  obtain ⟨r, hrun, _, _, _⟩ := addQuota_loop nvidia ns hard q hl1
  obtain ⟨r', hrun', _, _, _⟩ := addQuota_loop nvidia ns hard' q hl2
  have hlast : ∀ d, lastLimit nvidia hard d = lastLimit nvidia hard' d :=
    fun d => lastLimit_perm nvidia hard hard' hperm hfree d
  obtain ⟨hother, hres⟩ := addQuota_loop_result nvidia ns hard q r hl1 hrun
  obtain ⟨hother', hres'⟩ := addQuota_loop_result nvidia ns hard' q r' hl2 hrun'
  have heq : r = r' := by
    by_cases hno : ∀ d, lastLimit nvidia hard d = none
    · have h1 := addQuota_loop_of_no_names nvidia ns hard q hl1 hno
      have h2 := addQuota_loop_of_no_names nvidia ns hard' q hl2 (fun d => (hlast d) ▸ hno d)
      rw [hrun] at h1
      rw [hrun'] at h2
      rw [Option.some.inj h1, Option.some.inj h2]
    · have hno' : ¬ ∀ d, lastLimit nvidia hard' d = none :=
        fun h => hno (fun d => (hlast d).trans (h d))
      rcases hres with ⟨h, _⟩ | hres
      · exact absurd h hno
      · rcases hres' with ⟨h, _⟩ | hres'
        · exact absurd h hno'
        · funext n
          by_cases hn : n = ns
          · subst hn
            rw [hres, hres']
            congr 1
            funext d
            rw [hlast d]
          · rw [hother n hn, hother' n hn]
  refine ⟨⟨r, hrun⟩, ?_⟩
  show rangeM (addQuotaEntry nvidia ns) q hard = rangeM (addQuotaEntry nvidia ns) q hard'
  rw [hrun, hrun', heq]

theorem addQuota_order_irrelevant_without_collisions_witness :
    sampleQuota.Hard.Perm sampleQuota.Hard.reverse ∧
    (∀ e ∈ sampleQuota.Hard, 9 ≤ e.1.length) ∧
    (sampleQuota.Hard.filterMap (actsOn sampleNvidia)).Nodup ∧
    addQuota sampleNvidia sampleLedger { Namespace := "team-a", Hard := sampleQuota.Hard } =
      addQuota sampleNvidia sampleLedger
        { Namespace := "team-a", Hard := sampleQuota.Hard.reverse } :=
  ⟨(List.reverse_perm sampleQuota.Hard).symm, by decide, by decide,
    (addQuota_order_irrelevant_without_collisions sampleNvidia sampleLedger "team-a"
      sampleQuota.Hard sampleQuota.Hard.reverse (List.reverse_perm sampleQuota.Hard).symm
      (by decide) (by decide)).2⟩

end Scheduler
